import Mathlib

/-!
Verification of the generation-transition driver of `dynamics/dynamics.py`
(class `DynamicsSimulator`).

Modelling conventions for the shallow embedding:
* Real-valued quantities are modelled exactly by `ℚ`.  The source uses
  `math.fsum`, which returns the correctly rounded exact sum, so list
  summation is modelled by exact `List.sum`.
* Python `int(x)` is truncation toward zero (`pyInt`); Python `round(x, 5)`
  rounds half to even at five decimal digits (`round5`); `DECIMAL_PRECISION`
  is 5 in the source.
* `heapq.heapify`/`heappop` on distinct tuples pops the least tuple under
  Python's lexicographic tuple order; this is modelled by `popMin`, which
  removes the least element of the pending list (`pairLt` is the tuple order).
* Fallible operations (`assert`, `IndexError`, `ZeroDivisionError`) are
  modelled with `Option`/`Except String`.
* Randomness (`np.random.multinomial` / `uniform` / `dirichlet`) is modelled
  by passing the drawn vectors in as an explicit `draw` argument; facts that
  numpy guarantees about a draw (its length, a multinomial draw summing to
  its first argument) appear as hypotheses where a theorem needs them.
-/

/-- Python `int(q)`: truncation toward zero. -/
def pyInt (q : ℚ) : ℤ := if 0 ≤ q then ⌊q⌋ else ⌈q⌉

/-- Python `round(q)` to an integer: round half to even. -/
def pyRound (q : ℚ) : ℤ :=
  if q - ⌊q⌋ < 1/2 then ⌊q⌋
  else if 1/2 < q - ⌊q⌋ then ⌊q⌋ + 1
  else if ⌊q⌋ % 2 = 0 then ⌊q⌋ else ⌊q⌋ + 1

/-- Python `round(q, 5)` (the source's `DECIMAL_PRECISION = 5`). -/
def round5 (q : ℚ) : ℚ := (pyRound (q * 100000) : ℚ) / 100000

/-- Python's `<` on the `(threshold, index)` tuples stored in the heap of
`round_individuals`: lexicographic comparison. -/
def pairLt (a b : ℚ × ℕ) : Prop := a.1 < b.1 ∨ (a.1 = b.1 ∧ a.2 < b.2)

instance (a b : ℚ × ℕ) : Decidable (pairLt a b) := by
  unfold pairLt; exact inferInstance

/-- Least element of `c :: l` under `pairLt`. -/
def heapMin (c : ℚ × ℕ) : List (ℚ × ℕ) → ℚ × ℕ
  | [] => c
  | x :: xs => heapMin (if pairLt x c then x else c) xs

/-- `heapq.heappop`: removes and returns the least element of the heap
(`heapq` maintains a min-heap, and with pairwise distinct tuples the popped
element is exactly the least one). -/
def popMin (l : List (ℚ × ℕ)) : Option ((ℚ × ℕ) × List (ℚ × ℕ)) :=
  match l with
  | [] => none
  | x :: xs => some (heapMin x xs, l.erase (heapMin x xs))

/-- The `while diff > 0` loop of `round_individuals`: pop the least
`(threshold, index)` tuple and increment that index of the integer vector.
The popped index is always in range (the heap was built from valid indices),
so `List.set`/`getD` never hit their out-of-range defaults. -/
def popLoop : ℕ → List (ℚ × ℕ) → List ℤ → Option (List ℤ)
  | 0, _, ints => some ints
  | d + 1, heap, ints =>
    match popMin heap with
    | none => none
    | some (m, rest) => popLoop d rest (ints.set m.2 (ints.getD m.2 0 + 1))

/-- `enumerate(zip(ints, v))` starting at index `i`, already mapped through
`(x, y) ↦ (x - y, index)`: the list built by
`[((x - y), i) for i, (x, y) in enumerate(zip(int_num_senders,
unrounded_frequencies))]`. -/
def threshFrom : ℕ → List ℤ → List ℚ → List (ℚ × ℕ)
  | _, [], _ => []
  | _, _ :: _, [] => []
  | i, x :: xs, y :: ys => ((x : ℚ) - y, i) :: threshFrom (i + 1) xs ys

/-- `[((x - y), i) for i, (x, y) in enumerate(zip(int_num_senders,
unrounded_frequencies))]`. -/
def thresh (ints : List ℤ) (v : List ℚ) : List (ℚ × ℕ) := threshFrom 0 ints v

/-- `DynamicsSimulator.round_individuals`: truncate each entry, compute the
deficit against `int(round(fsum(v), 5))`, hand out one unit per unit of
deficit by popping the heap of `(floor - original, index)` tuples, and check
the final `assert sum(int_num_senders) == total` (`none` models the
`AssertionError`). -/
def round_individuals (v : List ℚ) : Option (List ℤ) :=
  let total : ℤ := pyInt (round5 v.sum)
  let ints : List ℤ := v.map pyInt
  let diff : ℤ := total - ints.sum
  let res : Option (List ℤ) :=
    if 0 < diff then popLoop diff.toNat (thresh ints v) ints else some ints
  match res with
  | none => none
  | some out => if out.sum = total then some out else none

/-- Python `list.insert(k, a)`: insert at position `k`, clamped to the end of
the list when `k` exceeds the length. -/
def pyInsert {α : Type} (k : ℕ) (a : α) : List α → List α
  | [] => [a]
  | x :: xs =>
    match k with
    | 0 => a :: x :: xs
    | k' + 1 => x :: pyInsert k' a xs

/-- The fixation-probability seeding of `simulate` (lines 157-177) acting on
the first player type's vector `v` with designated strategy index `k`:
`players_to_distribute = v[k] - 1`; the designated entry is set to `1`; the
remaining players are split into `len(v) - 1` buckets, the first buckets
getting `int(ptd/nd)` each and the last bucket `ptd - count`; a `0` is
inserted at position `k` so the designated strategy receives nothing; every
other entry is incremented by its bucket.  `none` models the `IndexError`
when `k` is out of range.  (The source's final loop also executes
`players_to_distribute -= player_dist`, which only clobbers a variable that
is never read again; it has no effect on the state.)

`seedBuckets ptd nd` is the `player_dist` list before the `insert` call:
`nd` buckets, the first `nd - 1` holding `int(ptd/nd)` each and the last
holding `ptd - count` where `count = (nd-1)*int(ptd/nd)`. -/
def seedBuckets (ptd : ℚ) (nd : ℕ) : List ℚ :=
  (List.range nd).map fun i =>
    if i ≠ nd - 1 then (pyInt (ptd / (nd : ℚ)) : ℚ)
    else ptd - (nd - 1) * (pyInt (ptd / (nd : ℚ)) : ℚ)

/-- The seeding transformation itself: set index `k` to exactly 1 and add
the inserted bucket list pointwise to every other index. -/
def fixation_seed (v : List ℚ) (k : ℕ) : Option (List ℚ) :=
  if hk : k < v.length then
    some (List.ofFn fun i : Fin v.length =>
      if (i : ℕ) = k then 1
      else v.get i +
        (pyInsert k 0 (seedBuckets (v.get ⟨k, hk⟩ - 1) (v.length - 1))).getD i 0)
  else none

/-- A per-player-type strategy vector (a numpy row in the source). -/
abbrev Vec := List ℚ

/-- A population state: one strategy vector per player type. -/
abbrev PopState := List Vec

/-- One population state per group. -/
abbrev GroupStates := List PopState

/-- The configuration fields of `DynamicsSimulator` used by the driver:
`numPlayerTypes`/`numStrats` come from the injected payoff matrix
(`pm.num_player_types`, `pm.num_strats`), `numPlayers` is `self.num_players`
(apportioned counts for a finite population, the raw frequencies for an
infinite one), plus `number_groups`, `rate`, `uniDist`,
`infinite_pop_size` and the (per-group) `pop_size`.  The fitness-function
fields are omitted: no claim concerns `calculate_fitnesses`. -/
structure Config where
  numPlayerTypes : ℕ
  numStrats : List ℕ
  numPlayers : List ℚ
  numberGroups : ℕ
  rate : ℚ
  uniDist : Bool
  infinitePopSize : Bool
  popSize : ℤ

/-- A well-formed configuration: the per-type totals and the strategy counts
both have one entry per player type (the payoff-matrix collaborator
guarantees one strategy count per type), and there is at least one group. -/
def WF (cfg : Config) : Prop :=
  cfg.numPlayers.length = cfg.numPlayerTypes ∧
  cfg.numStrats.length = cfg.numPlayerTypes ∧ 1 ≤ cfg.numberGroups

/-- `DynamicsSimulator.validate_state`: asserts that the state has one entry
per player type and that, walking `zip(s, self.num_players,
self.pm.num_strats)`, each vector sums to the expected total and has the
expected length.  The list/tuple-to-`np.array` coercion is a representation
change only, so success returns the state unchanged. -/
def validate_state (cfg : Config) (s : PopState) : Except String PopState :=
  if s.length = cfg.numPlayerTypes then
    if ∀ pen ∈ s.zip (cfg.numPlayers.zip cfg.numStrats),
        pen.1.sum = pen.2.1 ∧ pen.1.length = pen.2.2 then
      .ok s
    else .error "AssertionError: state invariant"
  else .error "AssertionError: player type count"

/-- `for i in range(self.number_groups): start_state[i] =
self.validate_state(start_state[i])`. -/
def validateGroups (cfg : Config) : GroupStates → Except String GroupStates
  | [] => .ok []
  | s :: rest =>
    match validate_state cfg s with
    | .error e => .error e
    | .ok r =>
      match validateGroups cfg rest with
      | .error e => .error e
      | .ok rs => .ok (r :: rs)

/-- The random start-state synthesis of `simulate` (lines 142-152): one state
per group, each state one drawn vector per `(n_p, n_s)` in
`zip(self.num_players, self.pm.num_strats)`.  `draw g n_p n_s` stands for
the numpy draw (`multinomial`, `uniform` or scaled `dirichlet`) made for
group `g`. -/
def synthState (cfg : Config) (draw : ℕ → ℚ → ℕ → Vec) : GroupStates :=
  (List.range cfg.numberGroups).map fun g =>
    (cfg.numPlayers.zip cfg.numStrats).map fun pns => draw g pns.1 pns.2

/-- Lines 185-187: `[0*np.random.uniform(0, 1, n_s) for n_p, n_s in
zip(self.num_players, self.pm.num_strats)]` per group - zero vectors. -/
def initialPayoffs (cfg : Config) : GroupStates :=
  (List.range cfg.numberGroups).map fun _ =>
    (cfg.numPlayers.zip cfg.numStrats).map fun pns => List.replicate pns.2 (0 : ℚ)

/-- The start-state setup of `simulate` (lines 141-182): with no caller
state, synthesize one and optionally apply fixation seeding (asserting a
single group first, then indexing `start_state[0][0]`); with a caller state,
assert the group count and validate each group.  Errors model the
`assert`/`IndexError` failures. -/
def setupStart (cfg : Config) (draw : ℕ → ℚ → ℕ → Vec)
    (start_state : Option GroupStates) (fixation_probability : Bool)
    (strategy_indx : ℕ) : Except String GroupStates :=
  match start_state with
  | some s =>
    if s.length = cfg.numberGroups then validateGroups cfg s
    else .error "AssertionError: start state group count"
  | none =>
    let st := synthState cfg draw
    if fixation_probability then
      if cfg.numberGroups = 1 then
        match st with
        | [] => .error "IndexError"
        | g0 :: grest =>
          match g0 with
          | [] => .error "IndexError"
          | v0 :: vrest =>
            match fixation_seed v0 strategy_indx with
            | none => .error "IndexError"
            | some w => .ok ((w :: vrest) :: grest)
      else .error "Fixation probability can only be computed for one group"
    else .ok st

/-- The generation loop of `simulate` (lines 194-200): call
`next_generation` with the current states, the group-selection flag
(`number_groups > 1`) and the rate; take one returned state and one payoff
snapshot per group (an `IndexError` if the rule returned fewer); validate
every group of the new state, which then becomes the next `start_state`.
Returns the appended tails of the `strategies` and `payoffs` lists. -/
def runGens (cfg : Config)
    (f : GroupStates → Bool → ℚ → GroupStates × GroupStates) :
    GroupStates → ℕ → Except String (List GroupStates × List GroupStates)
  | _, 0 => .ok ([], [])
  | st, n + 1 =>
    let rp := f st (decide (1 < cfg.numberGroups)) cfg.rate
    if cfg.numberGroups ≤ rp.1.length ∧ cfg.numberGroups ≤ rp.2.length then
      match validateGroups cfg (rp.1.take cfg.numberGroups) with
      | .error e => .error e
      | .ok r =>
        match runGens cfg f r n with
        | .error e => .error e
        | .ok (ss, ps) => .ok (r :: ss, rp.2.take cfg.numberGroups :: ps)
    else .error "IndexError"

/-- `simulate` up to (and including) the generation loop: the raw
`strategies` and `payoffs` lists, whose heads are the initial state and the
zero initial payoffs (lines 190-191). -/
def runSim (cfg : Config)
    (f : GroupStates → Bool → ℚ → GroupStates × GroupStates) (num_gens : ℕ)
    (start_state : Option GroupStates) (fixation_probability : Bool)
    (strategy_indx : ℕ) (draw : ℕ → ℚ → ℕ → Vec) :
    Except String (List GroupStates × List GroupStates) :=
  match setupStart cfg draw start_state fixation_probability strategy_indx with
  | .error e => .error e
  | .ok st0 =>
    match runGens cfg f st0 num_gens with
    | .error e => .error e
    | .ok (ss, ps) => .ok (st0 :: ss, initialPayoffs cfg :: ps)

/-- Elementwise numpy addition of two equal-length vectors. -/
def vadd (a b : Vec) : Vec := List.zipWith (· + ·) a b

/-- Python `sum(...)` over a nonempty generator of numpy vectors
(`0 + v = v` for the integer start value). -/
def vsum : List Vec → Vec
  | [] => []
  | h :: t => t.foldl vadd h

/-- `sum(np.array(traj[i][j][k]) for j in range(number_groups)) /
number_groups`: the across-group average vector for player type `t` in one
generation entry.  Indices are in range for every state the driver stores
(shapes are enforced by validation), so `getD` never falls back. -/
def groupAvg (ng : ℕ) (entry : GroupStates) (t : ℕ) : Vec :=
  (vsum ((List.range ng).map fun j => (entry.getD j []).getD t [])).map
    fun q => q / (ng : ℚ)

/-- Lines 204-205: for each player type `k`, the list over `i in
range(num_gens)` of the across-group average of `traj[i]`. -/
def reduceTraj (cfg : Config) (traj : List GroupStates) (num_gens : ℕ) :
    List (List Vec) :=
  (List.range cfg.numPlayerTypes).map fun t =>
    (List.range num_gens).map fun i =>
      groupAvg cfg.numberGroups (traj.getD i []) t

/-- `DynamicsSimulator.simulate`: run the setup and the generation loop,
then reduce both raw trajectories to the per-player-type group-averaged
trajectories that are returned. -/
def simulate (cfg : Config)
    (f : GroupStates → Bool → ℚ → GroupStates × GroupStates) (num_gens : ℕ)
    (start_state : Option GroupStates) (fixation_probability : Bool)
    (strategy_indx : ℕ) (draw : ℕ → ℚ → ℕ → Vec) :
    Except String (List (List Vec) × List (List Vec)) :=
  match runSim cfg f num_gens start_state fixation_probability strategy_indx draw with
  | .error e => .error e
  | .ok (strategies, payoffs) =>
    .ok (reduceTraj cfg strategies num_gens, reduceTraj cfg payoffs num_gens)

/-- `DynamicsSimulator.calculate_payoffs`.  `gep p s state` is the external
collaborator query `self.pm.get_expected_payoff(p, s, state)`.  The average
sums `payoff[i][j] * state[i][j]` for `i in range(len(payoff))` and `j in
range(len(payoff[0]))` - the inner bound is the FIRST row's length for every
row, exactly as in the source - and divides by `sum(chain(*state))`.
`none` models the `IndexError` (some row shorter than row 0) and
`ZeroDivisionError` (empty total population) failures. -/
def calculate_payoffs (num_strats : List ℕ) (gep : ℕ → ℕ → PopState → ℚ)
    (state : PopState) : Option (List (List ℚ) × ℚ) :=
  let payoff : List (List ℚ) :=
    num_strats.enum.map fun p => (List.range p.2).map fun s => gep p.1 s state
  let m := (payoff.headD []).length
  let denom : ℚ := (state.map List.sum).sum
  if (∀ row ∈ payoff, m ≤ row.length) ∧ payoff.length ≤ state.length ∧
      (∀ row ∈ state.take payoff.length, m ≤ row.length) ∧ denom ≠ 0 then
    some (payoff,
      (((List.range payoff.length).map fun i =>
        (((List.range m).map fun j =>
          (payoff.getD i []).getD j 0 * (state.getD i []).getD j 0)).sum).sum) / denom)
  else none

/-- The average-payoff formula as the specification states it: the sum over
ALL player types `t` and ALL strategies `s` of that type of
`payoff[t][s] * state[t][s]`, divided by the total population summed across
all types.  Written from the spec's words for comparison with
`calculate_payoffs`. -/
def avg_payoff_spec (payoff : List (List ℚ)) (state : PopState) : ℚ :=
  (((payoff.zip state).map fun rs =>
    ((rs.1.zip rs.2).map fun ab => ab.1 * ab.2).sum).sum) / (state.map List.sum).sum

/-- `DynamicsSimulator.__init__`: assert `math.fsum(player_frequencies) ==
1.0` and `pop_size >= 0`; integer-divide the population among the groups
when it exceeds the group count (`int(pop_size/number_groups)`, a
`ZeroDivisionError` when `number_groups == 0`); then either apportion
`[pop_size * x for x in player_frequencies]` into `self.num_players` and
assert the total (finite population), or store the raw frequencies
(infinite population).  `num_player_types`/`num_strats` mirror the injected
payoff matrix; the fitness-function configuration is omitted (no claim
concerns it).  In the infinite branch the source never assigns
`self.uniDist`; the field is stored unconditionally here but is only ever
read in the finite regime.

`dividedPop` is lines 52-53: `if pop_size > number_groups: pop_size =
int(pop_size/number_groups)` - the per-group population size. -/
def dividedPop (pop_size : ℤ) (number_groups : ℕ) : ℤ :=
  if (number_groups : ℤ) < pop_size then
    pyInt ((pop_size : ℚ) / (number_groups : ℚ))
  else pop_size

def mkSimulator (num_player_types : ℕ) (num_strats : List ℕ)
    (player_frequencies : List ℚ) (number_groups : ℕ) (pop_size : ℤ)
    (rate : ℚ) (uniDist : Bool) : Except String Config :=
  if player_frequencies.sum = 1 then
    if 0 ≤ pop_size then
      if (number_groups : ℤ) < pop_size ∧ number_groups = 0 then
        .error "ZeroDivisionError"
      else
        if 0 < dividedPop pop_size number_groups then
          match round_individuals (player_frequencies.map
            fun x => (dividedPop pop_size number_groups : ℚ) * x) with
          | none => .error "AssertionError: round_individuals"
          | some np =>
            if np.sum = dividedPop pop_size number_groups then
              .ok { numPlayerTypes := num_player_types, numStrats := num_strats,
                    numPlayers := np.map fun z => (z : ℚ),
                    numberGroups := number_groups, rate := rate,
                    uniDist := uniDist, infinitePopSize := false,
                    popSize := dividedPop pop_size number_groups }
            else .error "AssertionError: num_players sum"
        else
          .ok { numPlayerTypes := num_player_types, numStrats := num_strats,
                numPlayers := player_frequencies, numberGroups := number_groups,
                rate := rate, uniDist := uniDist, infinitePopSize := true,
                popSize := dividedPop pop_size number_groups }
    else .error "AssertionError: pop_size"
  else .error "AssertionError: player_frequencies"

/-- `true` exactly when an `Except` computation succeeded. -/
def exceptOk {α : Type} : Except String α → Bool
  | .ok _ => true
  | .error _ => false

/-- The §4.2 transition-rule contract for the payoff snapshots a rule
returns: each snapshot is parallel to a population state - one row per
player type, one entry per strategy of that type. -/
def PayoffShaped (cfg : Config)
    (f : GroupStates → Bool → ℚ → GroupStates × GroupStates) : Prop :=
  ∀ st gs r, ∀ snap ∈ (f st gs r).2, snap.length = cfg.numPlayerTypes ∧
    ∀ t, t < cfg.numPlayerTypes → (snap.getD t []).length = cfg.numStrats.getD t 0

theorem pyInt_of_nonneg {q : ℚ} (h : 0 ≤ q) : pyInt q = ⌊q⌋ := by
  simp [pyInt, h]

theorem pyRound_floor_le (q : ℚ) : ⌊q⌋ ≤ pyRound q := by
  unfold pyRound
  split
  · exact le_refl _
  · split
    · omega
    · split <;> omega

theorem pyRound_le_add_half (q : ℚ) : (pyRound q : ℚ) ≤ q + 1/2 := by
  unfold pyRound
  split
  · have := Int.floor_le q
    push_cast
    linarith
  · rename_i h1
    push_neg at h1
    split
    · rename_i h2
      push_cast
      linarith
    · rename_i h2
      push_neg at h2
      have h3 : q - ⌊q⌋ = 1/2 := le_antisymm h2 h1
      split
      · push_cast
        linarith
      · push_cast
        linarith

theorem intCast_le_round5 {m : ℤ} {q : ℚ} (h : (m : ℚ) ≤ q) :
    (m : ℚ) ≤ round5 q := by
  unfold round5
  rw [le_div_iff (by norm_num : (0:ℚ) < 100000)]
  have h1 : ((m * 100000 : ℤ) : ℚ) ≤ q * 100000 := by
    push_cast
    nlinarith
  have h2 : (m * 100000 : ℤ) ≤ ⌊q * 100000⌋ := Int.le_floor.mpr h1
  have h3 : (m * 100000 : ℤ) ≤ pyRound (q * 100000) :=
    le_trans h2 (pyRound_floor_le _)
  calc (m : ℚ) * 100000 = ((m * 100000 : ℤ) : ℚ) := by push_cast; ring
    _ ≤ (pyRound (q * 100000) : ℚ) := by exact_mod_cast h3

theorem round5_le_add (q : ℚ) : round5 q ≤ q + 1/200000 := by
  unfold round5
  rw [div_le_iff (by norm_num : (0:ℚ) < 100000)]
  have := pyRound_le_add_half (q * 100000)
  nlinarith

theorem pyRound_intCast (n : ℤ) : pyRound (n : ℚ) = n := by
  unfold pyRound
  rw [Int.floor_intCast]
  norm_num

theorem round5_intCast (n : ℤ) : round5 (n : ℚ) = n := by
  unfold round5
  have h : (n : ℚ) * 100000 = ((n * 100000 : ℤ) : ℚ) := by push_cast; ring
  rw [h, pyRound_intCast]
  push_cast
  field_simp

theorem round5_nonneg {q : ℚ} (h : 0 ≤ q) : 0 ≤ round5 q := by
  have h0 : ((0 : ℤ) : ℚ) ≤ q := by exact_mod_cast h
  have := intCast_le_round5 (m := 0) h0
  exact_mod_cast this

theorem floorSum_le (v : List ℚ) (hv : ∀ x ∈ v, 0 ≤ x) :
    ((v.map pyInt).sum : ℚ) ≤ v.sum := by
  induction v with
  | nil => simp
  | cons x xs ih =>
    have hx := hv x (by simp)
    have h1 : (pyInt x : ℚ) ≤ x := by
      rw [pyInt_of_nonneg hx]
      exact Int.floor_le x
    have h2 := ih (fun y hy => hv y (by simp [hy]))
    simp only [List.map_cons, List.sum_cons]
    push_cast at h2 ⊢
    linarith

theorem sum_le_floorSum_add (v : List ℚ) (hv : ∀ x ∈ v, 0 ≤ x) :
    v.sum ≤ ((v.map pyInt).sum : ℚ) + v.length := by
  induction v with
  | nil => simp
  | cons x xs ih =>
    have hx := hv x (by simp)
    have h1 : x < (pyInt x : ℚ) + 1 := by
      rw [pyInt_of_nonneg hx]
      exact_mod_cast Int.lt_floor_add_one x
    have h2 := ih (fun y hy => hv y (by simp [hy]))
    simp only [List.map_cons, List.sum_cons, List.length_cons]
    push_cast at h2 ⊢
    linarith

theorem sum_lt_floorSum_add (v : List ℚ) (hv : ∀ x ∈ v, 0 ≤ x)
    (hne : v ≠ []) : v.sum < ((v.map pyInt).sum : ℚ) + v.length := by
  cases v with
  | nil => cases hne rfl
  | cons x xs =>
    have hx := hv x (by simp)
    have h1 : x < (pyInt x : ℚ) + 1 := by
      rw [pyInt_of_nonneg hx]
      exact_mod_cast Int.lt_floor_add_one x
    have h2 := sum_le_floorSum_add xs (fun y hy => hv y (by simp [hy]))
    simp only [List.map_cons, List.sum_cons, List.length_cons]
    push_cast at h2 ⊢
    linarith

theorem pairLt_trans {a b c : ℚ × ℕ} (h1 : pairLt a b) (h2 : pairLt b c) :
    pairLt a c := by
  unfold pairLt at *
  rcases h1 with h1 | ⟨h1e, h1n⟩ <;> rcases h2 with h2 | ⟨h2e, h2n⟩
  · exact Or.inl (lt_trans h1 h2)
  · exact Or.inl (h2e ▸ h1)
  · exact Or.inl (h1e ▸ h2)
  · exact Or.inr ⟨h1e.trans h2e, lt_trans h1n h2n⟩

theorem pairLt_of_ne {a b : ℚ × ℕ} (h : ¬ pairLt a b) (hne : b ≠ a) :
    pairLt b a := by
  unfold pairLt at *
  push_neg at h
  obtain ⟨h1, h2⟩ := h
  rcases lt_trichotomy b.1 a.1 with hlt | heq | hgt
  · exact Or.inl hlt
  · right
    refine ⟨heq, ?_⟩
    have h3 := h2 heq.symm
    have hne2 : b.2 ≠ a.2 := by
      intro hn
      exact hne (Prod.ext heq hn)
    omega
  · exact absurd hgt (not_lt.mpr h1)

theorem heapMin_mem (c : ℚ × ℕ) (l : List (ℚ × ℕ)) : heapMin c l ∈ c :: l := by
  induction l generalizing c with
  | nil => simp [heapMin]
  | cons x xs ih =>
    rw [heapMin]
    have h := ih (if pairLt x c then x else c)
    rcases List.mem_cons.mp h with h | h
    · rw [h]
      split
      · exact List.mem_cons_of_mem _ (List.mem_cons_self _ _)
      · exact List.mem_cons_self _ _
    · exact List.mem_cons_of_mem _ (List.mem_cons_of_mem _ h)

theorem heapMin_min (c : ℚ × ℕ) (l : List (ℚ × ℕ)) :
    ∀ e ∈ c :: l, heapMin c l = e ∨ pairLt (heapMin c l) e := by
  induction l generalizing c with
  | nil =>
    intro e he
    left
    rw [heapMin]
    have : e = c := by simpa using he
    exact this.symm
  | cons x xs ih =>
    intro e he
    rw [heapMin]
    rcases List.mem_cons.mp he with heq | he2
    · -- e is the old candidate c
      subst heq
      by_cases hxc : pairLt x e
      · rw [if_pos hxc]
        rcases ih x x (List.mem_cons_self _ _) with h | h
        · exact Or.inr (by rw [h]; exact hxc)
        · exact Or.inr (pairLt_trans h hxc)
      · rw [if_neg hxc]
        exact ih e e (List.mem_cons_self _ _)
    · rcases List.mem_cons.mp he2 with heq | he3
      · -- e is the newly considered head x
        subst heq
        by_cases hxc : pairLt e c
        · rw [if_pos hxc]
          exact ih e e (List.mem_cons_self _ _)
        · rw [if_neg hxc]
          by_cases hec : e = c
          · subst hec
            exact ih e e (List.mem_cons_self _ _)
          · have hce : pairLt c e := pairLt_of_ne hxc (Ne.symm hec)
            rcases ih c c (List.mem_cons_self _ _) with h | h
            · exact Or.inr (by rw [h]; exact hce)
            · exact Or.inr (pairLt_trans h hce)
      · -- e is in the tail xs
        exact ih (if pairLt x c then x else c) e (List.mem_cons_of_mem _ he3)

theorem popMin_eq {l : List (ℚ × ℕ)} (h : l ≠ []) :
    ∃ m, popMin l = some (m, l.erase m) ∧ m ∈ l ∧
      ∀ e ∈ l, m = e ∨ pairLt m e := by
  cases l with
  | nil => cases h rfl
  | cons x xs => exact ⟨heapMin x xs, rfl, heapMin_mem x xs, heapMin_min x xs⟩

theorem sum_set_add_one (l : List ℤ) (i : ℕ) (h : i < l.length) :
    (l.set i (l.getD i 0 + 1)).sum = l.sum + 1 := by
  induction l generalizing i with
  | nil => simp at h
  | cons x xs ih =>
    cases i with
    | zero =>
      simp only [List.set, List.getD_cons_zero, List.sum_cons]
      ring
    | succ n =>
      simp only [List.set, List.getD_cons_succ, List.sum_cons]
      rw [ih n (by simpa using h)]
      ring

theorem getD_set_self (l : List ℤ) (i : ℕ) (h : i < l.length) (z : ℤ) :
    (l.set i z).getD i 0 = z := by
  induction l generalizing i with
  | nil => simp at h
  | cons x xs ih =>
    cases i with
    | zero => simp
    | succ n =>
      simp only [List.set, List.getD_cons_succ]
      exact ih n (by simpa using h)

theorem getD_set_ne (l : List ℤ) (i j : ℕ) (hne : j ≠ i) (z : ℤ) :
    (l.set i z).getD j 0 = l.getD j 0 := by
  induction l generalizing i j with
  | nil => simp
  | cons x xs ih =>
    cases i with
    | zero =>
      cases j with
      | zero => exact absurd rfl hne
      | succ m => simp
    | succ n =>
      cases j with
      | zero => simp
      | succ m =>
        simp only [List.set, List.getD_cons_succ]
        exact ih n m (by omega)

theorem popLoop_spec (d : ℕ) :
    ∀ (heap : List (ℚ × ℕ)) (ints : List ℤ), d ≤ heap.length →
      (∀ e ∈ heap, e.2 < ints.length) →
      ∃ out, popLoop d heap ints = some out ∧ out.sum = ints.sum + d ∧
        out.length = ints.length := by
  induction d with
  | zero =>
    intro heap ints _ _
    exact ⟨ints, rfl, by simp, rfl⟩
  | succ n ih =>
    intro heap ints hlen hidx
    have hne : heap ≠ [] := by
      intro h
      rw [h] at hlen
      simp at hlen
    obtain ⟨m, hpop, hmem, _⟩ := popMin_eq hne
    have hm2 : m.2 < ints.length := hidx m hmem
    have hrest_len : n ≤ (heap.erase m).length := by
      rw [List.length_erase_of_mem hmem]
      omega
    have hrest_idx : ∀ e ∈ heap.erase m,
        e.2 < (ints.set m.2 (ints.getD m.2 0 + 1)).length := by
      intro e he
      rw [List.length_set]
      exact hidx e (List.erase_subset _ _ he)
    obtain ⟨out, hout, hsum, hlen2⟩ :=
      ih (heap.erase m) (ints.set m.2 (ints.getD m.2 0 + 1)) hrest_len hrest_idx
    refine ⟨out, ?_, ?_, ?_⟩
    · simp only [popLoop, hpop]
      exact hout
    · rw [hsum, sum_set_add_one ints m.2 hm2]
      push_cast
      ring
    · rw [hlen2, List.length_set]

theorem popLoop_untouched (d : ℕ) :
    ∀ (heap : List (ℚ × ℕ)) (ints out : List ℤ) (j : ℕ),
      popLoop d heap ints = some out → (∀ e ∈ heap, e.2 ≠ j) →
      out.getD j 0 = ints.getD j 0 := by
  induction d with
  | zero =>
    intro heap ints out j h _
    simp only [popLoop] at h
    obtain rfl := Option.some.inj h
    rfl
  | succ n ih =>
    intro heap ints out j h hnj
    by_cases hne : heap = []
    · subst hne
      simp [popLoop, popMin] at h
    · obtain ⟨m, hpop, hmem, _⟩ := popMin_eq hne
      simp only [popLoop, hpop] at h
      have h1 := ih (heap.erase m) _ out j h
        (fun e he => hnj e (List.erase_subset _ _ he))
      rw [h1, getD_set_ne ints m.2 j (Ne.symm (hnj m hmem)) _]

theorem erase_min_snd_ne (heap : List (ℚ × ℕ)) (m : ℚ × ℕ)
    (hnd : (heap.map Prod.snd).Nodup) (hmem : m ∈ heap) :
    ∀ e ∈ heap.erase m, e.2 ≠ m.2 := by
  intro e he hEq
  have hndl : heap.Nodup := List.Nodup.of_map _ hnd
  have he' : e ∈ heap := List.erase_subset _ _ he
  have hem : e = m := List.inj_on_of_nodup_map hnd he' hmem hEq
  subst hem
  exact ((List.Nodup.mem_erase_iff hndl).mp he).1 rfl

theorem popLoop_units (d : ℕ) :
    ∀ (heap : List (ℚ × ℕ)) (ints out : List ℤ),
      popLoop d heap ints = some out → (heap.map Prod.snd).Nodup →
      (∀ e ∈ heap, e.2 < ints.length) →
      ∀ j : ℕ, out.getD j 0 = ints.getD j 0 ∨
        (out.getD j 0 = ints.getD j 0 + 1 ∧ ∃ e ∈ heap, e.2 = j) := by
  induction d with
  | zero =>
    intro heap ints out h _ _ j
    simp only [popLoop] at h
    obtain rfl := Option.some.inj h
    exact Or.inl rfl
  | succ n ih =>
    intro heap ints out h hnd hidx j
    have hne : heap ≠ [] := by
      intro hx
      subst hx
      simp [popLoop, popMin] at h
    obtain ⟨m, hpop, hmem, _⟩ := popMin_eq hne
    simp only [popLoop, hpop] at h
    have hrest_nd : ((heap.erase m).map Prod.snd).Nodup :=
      hnd.sublist (List.Sublist.map _ (List.erase_sublist _ _))
    have hrest_idx : ∀ e ∈ heap.erase m,
        e.2 < (ints.set m.2 (ints.getD m.2 0 + 1)).length := by
      intro e he
      rw [List.length_set]
      exact hidx e (List.erase_subset _ _ he)
    rcases eq_or_ne j m.2 with hj | hj
    · right
      have h1 := popLoop_untouched n (heap.erase m) _ out j h
        (fun e he hc => erase_min_snd_ne heap m hnd hmem e he (hj ▸ hc))
      refine ⟨?_, m, hmem, hj.symm⟩
      rw [h1, hj, getD_set_self ints m.2 (hidx m hmem)]
    · have h2 := ih (heap.erase m) _ out h hrest_nd hrest_idx j
      rcases h2 with h2 | ⟨h2, e, he, hej⟩
      · left
        rw [h2, getD_set_ne ints m.2 j hj _]
      · right
        refine ⟨by rw [h2, getD_set_ne ints m.2 j hj _], e,
          List.erase_subset _ _ he, hej⟩

theorem popLoop_order (d : ℕ) :
    ∀ (heap : List (ℚ × ℕ)) (ints out : List ℤ),
      popLoop d heap ints = some out → (heap.map Prod.snd).Nodup →
      (∀ e ∈ heap, e.2 < ints.length) →
      ∀ e ∈ heap, ∀ e' ∈ heap,
        out.getD e.2 0 = ints.getD e.2 0 + 1 →
        out.getD e'.2 0 = ints.getD e'.2 0 → pairLt e e' := by
  induction d with
  | zero =>
    intro heap ints out h _ _ e _ e' _ h1 _
    simp only [popLoop] at h
    obtain rfl := Option.some.inj h
    omega
  | succ n ih =>
    intro heap ints out h hnd hidx e he e' he' hinc hkeep
    have hne : heap ≠ [] := by
      intro hx
      subst hx
      simp [popLoop, popMin] at h
    obtain ⟨m, hpop, hmem, hmin⟩ := popMin_eq hne
    simp only [popLoop, hpop] at h
    have hndl : heap.Nodup := List.Nodup.of_map _ hnd
    have hrest_nd : ((heap.erase m).map Prod.snd).Nodup :=
      hnd.sublist (List.Sublist.map _ (List.erase_sublist _ _))
    have hrest_idx : ∀ x ∈ heap.erase m,
        x.2 < (ints.set m.2 (ints.getD m.2 0 + 1)).length := by
      intro x hx
      rw [List.length_set]
      exact hidx x (List.erase_subset _ _ hx)
    have hm_inc : out.getD m.2 0 = ints.getD m.2 0 + 1 := by
      have h1 := popLoop_untouched n (heap.erase m) _ out m.2 h
        (erase_min_snd_ne heap m hnd hmem)
      rw [h1, getD_set_self ints m.2 (hidx m hmem)]
    by_cases hem : e' = m
    · exfalso
      rw [hem] at hkeep
      rw [hkeep] at hm_inc
      omega
    · have he'r : e' ∈ heap.erase m := (List.Nodup.mem_erase_iff hndl).mpr ⟨hem, he'⟩
      by_cases hemm : e = m
      · subst hemm
        rcases hmin e' he' with h3 | h3
        · exact absurd h3.symm hem
        · exact h3
      · have her : e ∈ heap.erase m := (List.Nodup.mem_erase_iff hndl).mpr ⟨hemm, he⟩
        have hje : e.2 ≠ m.2 :=
          fun hc => hemm (List.inj_on_of_nodup_map hnd he hmem hc)
        have hje' : e'.2 ≠ m.2 :=
          fun hc => hem (List.inj_on_of_nodup_map hnd he' hmem hc)
        apply ih (heap.erase m) _ out h hrest_nd hrest_idx e her e' he'r
        · rw [getD_set_ne ints m.2 e.2 hje _]
          exact hinc
        · rw [getD_set_ne ints m.2 e'.2 hje' _]
          exact hkeep

theorem threshFrom_length (i : ℕ) (ints : List ℤ) (v : List ℚ)
    (h : ints.length = v.length) : (threshFrom i ints v).length = v.length := by
  induction ints generalizing i v with
  | nil =>
    cases v with
    | nil => simp [threshFrom]
    | cons y ys => simp at h
  | cons x xs ih =>
    cases v with
    | nil => simp at h
    | cons y ys =>
      simp only [threshFrom, List.length_cons]
      rw [ih (i + 1) ys (by simpa using h)]

theorem threshFrom_snd_ge (i : ℕ) (ints : List ℤ) (v : List ℚ) :
    ∀ e ∈ threshFrom i ints v, i ≤ e.2 := by
  induction ints generalizing i v with
  | nil =>
    intro e he
    cases v <;> simp [threshFrom] at he
  | cons x xs ih =>
    intro e he
    cases v with
    | nil => simp [threshFrom] at he
    | cons y ys =>
      simp only [threshFrom, List.mem_cons] at he
      rcases he with rfl | he
      · simp
      · have := ih (i + 1) ys e he
        omega

theorem threshFrom_snd_nodup (i : ℕ) (ints : List ℤ) (v : List ℚ) :
    ((threshFrom i ints v).map Prod.snd).Nodup := by
  induction ints generalizing i v with
  | nil => cases v <;> simp [threshFrom]
  | cons x xs ih =>
    cases v with
    | nil => simp [threshFrom]
    | cons y ys =>
      simp only [threshFrom, List.map_cons, List.nodup_cons]
      refine ⟨?_, ih (i + 1) ys⟩
      intro hmem
      obtain ⟨e, he, hei⟩ := List.mem_map.mp hmem
      have := threshFrom_snd_ge (i + 1) xs ys e he
      omega

theorem mem_threshFrom (i : ℕ) (ints : List ℤ) (v : List ℚ)
    (h : ints.length = v.length) :
    ∀ e ∈ threshFrom i ints v, ∃ j, j < v.length ∧ e.2 = i + j ∧
      e.1 = (ints.getD j 0 : ℚ) - v.getD j 0 := by
  induction ints generalizing i v with
  | nil =>
    intro e he
    cases v <;> simp [threshFrom] at he
  | cons x xs ih =>
    intro e he
    cases v with
    | nil => simp at h
    | cons y ys =>
      simp only [threshFrom, List.mem_cons] at he
      rcases he with rfl | he
      · exact ⟨0, by simp, by simp, by simp⟩
      · obtain ⟨j, hj, hj2, hj3⟩ := ih (i + 1) ys (by simpa using h) e he
        refine ⟨j + 1, by simpa using hj, by omega, ?_⟩
        simpa using hj3

theorem threshFrom_mem_of_lt (i : ℕ) (ints : List ℤ) (v : List ℚ)
    (h : ints.length = v.length) :
    ∀ j, j < v.length →
      ((ints.getD j 0 : ℚ) - v.getD j 0, i + j) ∈ threshFrom i ints v := by
  induction ints generalizing i v with
  | nil =>
    intro j hj
    cases v with
    | nil => simp at hj
    | cons y ys => simp at h
  | cons x xs ih =>
    intro j hj
    cases v with
    | nil => simp at hj
    | cons y ys =>
      cases j with
      | zero => simp [threshFrom]
      | succ jj =>
        simp only [threshFrom, List.mem_cons, List.getD_cons_succ]
        right
        have hmem := ih (i + 1) ys (by simpa using h) jj (by simpa using hj)
        have harith : i + (jj + 1) = (i + 1) + jj := by omega
        rw [harith]
        exact hmem

theorem round_individuals_eq (v : List ℚ) :
    round_individuals v =
      Option.bind
        (if 0 < pyInt (round5 v.sum) - (v.map pyInt).sum then
          popLoop (pyInt (round5 v.sum) - (v.map pyInt).sum).toNat
            (thresh (v.map pyInt) v) (v.map pyInt)
         else some (v.map pyInt))
        (fun out => if out.sum = pyInt (round5 v.sum) then some out else none) := by
  have hmatch : ∀ res : Option (List ℤ),
      (match res with
       | none => none
       | some out => if out.sum = pyInt (round5 v.sum) then some out else none) =
      res.bind (fun out => if out.sum = pyInt (round5 v.sum) then some out else none) := by
    intro res
    cases res <;> rfl
  exact hmatch _

theorem round_individuals_some (v : List ℚ) (hv : ∀ x ∈ v, 0 ≤ x) :
    ∃ out : List ℤ, round_individuals v = some out ∧
      out.length = v.length ∧ out.sum = pyInt (round5 v.sum) := by
  have hs0 : 0 ≤ v.sum := List.sum_nonneg hv
  have hr0 : 0 ≤ round5 v.sum := round5_nonneg hs0
  have htf : pyInt (round5 v.sum) = ⌊round5 v.sum⌋ := pyInt_of_nonneg hr0
  have hlen : (v.map pyInt).length = v.length := List.length_map _ _
  have hk_le : (v.map pyInt).sum ≤ pyInt (round5 v.sum) := by
    rw [htf]
    exact Int.le_floor.mpr (intCast_le_round5 (floorSum_le v hv))
  rw [round_individuals_eq v]
  rcases lt_or_le (v.map pyInt).sum (pyInt (round5 v.sum)) with hlt | hge
  · -- the loop runs
    have hne : v ≠ [] := by
      rintro rfl
      simp only [List.map_nil, List.sum_nil] at hlt
      rw [show ((0:ℚ) = ((0 : ℤ) : ℚ)) from rfl, round5_intCast] at hlt
      simp [pyInt] at hlt
    have hub : pyInt (round5 v.sum) ≤ (v.map pyInt).sum + v.length := by
      have h1 : ((pyInt (round5 v.sum)) : ℚ) ≤ round5 v.sum := by
        rw [htf]
        exact Int.floor_le _
      have h2 := round5_le_add v.sum
      have h3 := sum_lt_floorSum_add v hv hne
      have h5 : ((pyInt (round5 v.sum)) : ℚ) <
          (((v.map pyInt).sum : ℤ) : ℚ) + (v.length : ℚ) + 1 := by
        linarith
      have h6 : pyInt (round5 v.sum) < (v.map pyInt).sum + v.length + 1 := by
        exact_mod_cast h5
      omega
    have hd : (pyInt (round5 v.sum) - (v.map pyInt).sum).toNat ≤
        (thresh (v.map pyInt) v).length := by
      unfold thresh
      rw [threshFrom_length 0 _ _ hlen]
      omega
    have hidx : ∀ e ∈ thresh (v.map pyInt) v, e.2 < (v.map pyInt).length := by
      intro e he
      obtain ⟨j, hj, hj2, _⟩ := mem_threshFrom 0 _ _ hlen e he
      rw [hlen]
      omega
    obtain ⟨out, hout, hsum, hlenout⟩ :=
      popLoop_spec _ (thresh (v.map pyInt) v) (v.map pyInt) hd hidx
    refine ⟨out, ?_, by rw [hlenout, hlen], ?_⟩
    · rw [if_pos (by omega : 0 < pyInt (round5 v.sum) - (v.map pyInt).sum), hout]
      have hfin : out.sum = pyInt (round5 v.sum) := by
        rw [hsum, Int.toNat_of_nonneg (by omega)]
        ring
      simp [hfin]
    · rw [hsum, Int.toNat_of_nonneg (by omega)]
      ring
  · -- no deficit: the truncated vector already matches
    have heq : pyInt (round5 v.sum) = (v.map pyInt).sum := le_antisymm hge hk_le
    refine ⟨v.map pyInt, ?_, hlen, heq.symm⟩
    rw [if_neg (by omega : ¬ 0 < pyInt (round5 v.sum) - (v.map pyInt).sum)]
    simp [heq]

theorem round_individuals_units_order (v : List ℚ) (out : List ℤ)
    (h : round_individuals v = some out) :
    ∀ i, i < v.length →
      (out.getD i 0 = (v.map pyInt).getD i 0 ∨
        out.getD i 0 = (v.map pyInt).getD i 0 + 1) ∧
      ∀ j, j < v.length →
        out.getD i 0 = (v.map pyInt).getD i 0 + 1 →
        out.getD j 0 = (v.map pyInt).getD j 0 →
        pairLt (((v.map pyInt).getD i 0 : ℚ) - v.getD i 0, i)
          (((v.map pyInt).getD j 0 : ℚ) - v.getD j 0, j) := by
  intro i hi
  rw [round_individuals_eq v] at h
  have hlen : (v.map pyInt).length = v.length := List.length_map _ _
  by_cases hc : 0 < pyInt (round5 v.sum) - (v.map pyInt).sum
  · rw [if_pos hc] at h
    obtain ⟨mid, hmid, hf⟩ := Option.bind_eq_some.mp h
    have hout : mid = out := by
      by_cases hs : mid.sum = pyInt (round5 v.sum)
      · rw [if_pos hs] at hf
        exact Option.some.inj hf
      · rw [if_neg hs] at hf
        cases hf
    subst hout
    have hnd := threshFrom_snd_nodup 0 (v.map pyInt) v
    have hidx : ∀ e ∈ thresh (v.map pyInt) v, e.2 < (v.map pyInt).length := by
      intro e he
      obtain ⟨j, hj, hj2, _⟩ := mem_threshFrom 0 _ _ hlen e he
      rw [hlen]
      omega
    constructor
    · rcases popLoop_units _ _ _ _ hmid hnd hidx i with h1 | ⟨h1, _⟩
      · exact Or.inl h1
      · exact Or.inr h1
    · intro j hj hinc hkeep
      have hei := threshFrom_mem_of_lt 0 (v.map pyInt) v hlen i hi
      have hej := threshFrom_mem_of_lt 0 (v.map pyInt) v hlen j hj
      rw [Nat.zero_add] at hei hej
      exact popLoop_order _ _ _ _ hmid hnd hidx _ hei _ hej hinc hkeep
  · rw [if_neg hc] at h
    have hout : v.map pyInt = out := by
      simp only [Option.some_bind] at h
      by_cases hs : (v.map pyInt).sum = pyInt (round5 v.sum)
      · rw [if_pos hs] at h
        exact Option.some.inj h
      · rw [if_neg hs] at h
        cases h
    constructor
    · exact Or.inl (by rw [← hout])
    · intro j hj hinc _
      rw [← hout] at hinc
      omega

/-- Claim C6: when the apportionment deficit is positive, each extra unit is
given to the index with the largest fractional remainder - i.e. whose heap
key `(floor[i] - original[i], i)` is least under the tuple order `pairLt`,
ties broken by original index order - and no index receives more than one
unit; concretely, `round_individuals [1.6, 1.3, 1.1]` (integer target 4)
returns `[2, 1, 1]`. -/
theorem claim_C6 :
    round_individuals [(8:ℚ)/5, 13/10, 11/10] = some [2, 1, 1] ∧
    ∀ (v : List ℚ) (out : List ℤ), round_individuals v = some out →
      ∀ i, i < v.length →
        (out.getD i 0 = (v.map pyInt).getD i 0 ∨
          out.getD i 0 = (v.map pyInt).getD i 0 + 1) ∧
        ∀ j, j < v.length →
          out.getD i 0 = (v.map pyInt).getD i 0 + 1 →
          out.getD j 0 = (v.map pyInt).getD j 0 →
          pairLt (((v.map pyInt).getD i 0 : ℚ) - v.getD i 0, i)
            (((v.map pyInt).getD j 0 : ℚ) - v.getD j 0, j) := by
  constructor
  · have ht : pyInt (round5 (([(8:ℚ)/5, 13/10, 11/10]).sum)) = 4 := by
      norm_num [pyInt, round5, pyRound]
    have hi : ([(8:ℚ)/5, 13/10, 11/10]).map pyInt = [1, 1, 1] := by
      simp only [List.map]
      norm_num [pyInt]
    unfold round_individuals
    simp only [ht, hi]
    norm_num [thresh, threshFrom, popLoop, popMin, heapMin, pairLt,
      List.erase_cons]
  · exact fun v out h i hi => round_individuals_units_order v out h i hi

/-- Witness for C6 at the concrete example: index 0 (remainder key -3/5)
receives the single extra unit and its key is less than index 1's key. -/
theorem claim_C6_witness :
    round_individuals [(8:ℚ)/5, 13/10, 11/10] = some [2, 1, 1] ∧
    pairLt ((([(8:ℚ)/5, 13/10, 11/10].map pyInt).getD 0 0 : ℚ) -
        [(8:ℚ)/5, 13/10, 11/10].getD 0 0, 0)
      ((([(8:ℚ)/5, 13/10, 11/10].map pyInt).getD 1 0 : ℚ) -
        [(8:ℚ)/5, 13/10, 11/10].getD 1 0, 1) := by
  refine ⟨claim_C6.1, ?_⟩
  refine (claim_C6.2 _ _ claim_C6.1 0 (by norm_num)).2 1 (by norm_num) ?_ ?_
  · simp only [List.map]
    norm_num [pyInt]
  · simp only [List.map]
    norm_num [pyInt]

/-- Claim C1: for every vector `v` of non-negative rationals,
`round_individuals v` succeeds and returns an integer vector of the same
length whose sum equals the total `fsum(v)` rounded to 5 decimal digits and
then converted to the integer target, `int(round(fsum(v), 5))` =
`pyInt (round5 v.sum)`. -/
theorem claim_C1 (v : List ℚ) (hv : ∀ x ∈ v, 0 ≤ x) :
    (round_individuals v).isSome = true ∧
    ((round_individuals v).getD []).length = v.length ∧
    ((round_individuals v).getD []).sum = pyInt (round5 v.sum) := by
  obtain ⟨out, h1, h2, h3⟩ := round_individuals_some v hv
  rw [h1]
  exact ⟨rfl, h2, h3⟩

/-- Witness for C1 at `v = [0.7]`: the hypothesis holds and the returned
vector `[0]` has length 1 and sum `int(round(0.7, 5)) = 0`. -/
theorem claim_C1_witness :
    (0 : ℚ) ≤ 7/10 ∧
    (round_individuals [(7:ℚ)/10]).isSome = true ∧
    ((round_individuals [(7:ℚ)/10]).getD []).length = [(7:ℚ)/10].length ∧
    ((round_individuals [(7:ℚ)/10]).getD []).sum =
      pyInt (round5 ([(7:ℚ)/10]).sum) := by
  have h := claim_C1 [(7:ℚ)/10] (by norm_num)
  exact ⟨by norm_num, h.1, h.2.1, h.2.2⟩

theorem pyInsert_length {α : Type} (k : ℕ) (a : α) (l : List α) :
    (pyInsert k a l).length = l.length + 1 := by
  induction l generalizing k with
  | nil => simp [pyInsert]
  | cons x xs ih =>
    cases k with
    | zero => rfl
    | succ kk => simp [pyInsert, ih]

theorem pyInsert_sum (k : ℕ) (a : ℚ) (l : List ℚ) :
    (pyInsert k a l).sum = a + l.sum := by
  induction l generalizing k with
  | nil => simp [pyInsert]
  | cons x xs ih =>
    cases k with
    | zero => simp [pyInsert]
    | succ kk =>
      simp only [pyInsert, List.sum_cons, ih]
      ring

theorem pyInsert_getD_self (k : ℕ) (a : ℚ) (l : List ℚ) (h : k ≤ l.length) :
    (pyInsert k a l).getD k 0 = a := by
  induction l generalizing k with
  | nil =>
    cases k with
    | zero => rfl
    | succ kk => simp at h
  | cons x xs ih =>
    cases k with
    | zero => rfl
    | succ kk =>
      simp only [pyInsert, List.getD_cons_succ]
      exact ih kk (by simpa using h)

theorem seedBuckets_length (ptd : ℚ) (nd : ℕ) :
    (seedBuckets ptd nd).length = nd := by
  simp [seedBuckets]

theorem seedBuckets_sum (ptd : ℚ) (nd : ℕ) (h : 1 ≤ nd) :
    (seedBuckets ptd nd).sum = ptd := by
  obtain ⟨m, rfl⟩ : ∃ m, nd = m + 1 := ⟨nd - 1, by omega⟩
  unfold seedBuckets
  rw [List.range_succ, List.map_append]
  rw [List.sum_append]
  have h1 : (List.range m).map (fun i =>
      if i ≠ m + 1 - 1 then (pyInt (ptd / ((m + 1 : ℕ) : ℚ)) : ℚ)
      else ptd - (((m + 1 : ℕ) : ℚ) - 1) * (pyInt (ptd / ((m + 1 : ℕ) : ℚ)) : ℚ)) =
      List.replicate m ((pyInt (ptd / ((m + 1 : ℕ) : ℚ)) : ℚ)) := by
    rw [List.eq_replicate_iff]
    refine ⟨by simp, ?_⟩
    intro b hb
    obtain ⟨i, hi, rfl⟩ := List.mem_map.mp hb
    have him : i < m := List.mem_range.mp hi
    rw [if_pos (by omega : i ≠ m + 1 - 1)]
  rw [h1, List.sum_replicate, List.map_singleton, List.sum_singleton]
  rw [if_neg (by omega : ¬ (m ≠ m + 1 - 1))]
  rw [nsmul_eq_mul]
  push_cast
  ring

theorem sum_get_fin (l : List ℚ) : (∑ i : Fin l.length, l.get i) = l.sum := by
  conv_rhs => rw [← List.ofFn_get l]
  rw [List.sum_ofFn]

theorem sum_getD_of_length (l : List ℚ) (n : ℕ) (h : l.length = n) :
    (∑ i : Fin n, l.getD i 0) = l.sum := by
  subst h
  rw [← sum_get_fin l]
  apply Finset.sum_congr rfl
  intro i _
  rw [List.getD_eq_get l 0 i.isLt]

theorem fixation_seed_spec (v : List ℚ) (k : ℕ) (hk : k < v.length)
    (h2 : 2 ≤ v.length) :
    ∃ w, fixation_seed v k = some w ∧ w.length = v.length ∧
      w.getD k 0 = 1 ∧ w.sum = v.sum := by
  unfold fixation_seed
  rw [dif_pos hk]
  refine ⟨_, rfl, List.length_ofFn _, ?_, ?_⟩
  · rw [List.getD_eq_getElem _ _ (by rw [List.length_ofFn]; exact hk)]
    rw [List.getElem_ofFn]
    simp
  · rw [List.sum_ofFn]
    have hpdlen : (pyInsert k 0 (seedBuckets (v.get ⟨k, hk⟩ - 1) (v.length - 1))).length
        = v.length := by
      rw [pyInsert_length, seedBuckets_length]
      omega
    have hpdk : (pyInsert k 0 (seedBuckets (v.get ⟨k, hk⟩ - 1) (v.length - 1))).getD k 0
        = 0 := by
      apply pyInsert_getD_self
      rw [seedBuckets_length]
      omega
    have hpdsum : (pyInsert k 0 (seedBuckets (v.get ⟨k, hk⟩ - 1) (v.length - 1))).sum
        = v.get ⟨k, hk⟩ - 1 := by
      rw [pyInsert_sum, seedBuckets_sum _ _ (by omega)]
      ring
    set pd := pyInsert k 0 (seedBuckets (v.get ⟨k, hk⟩ - 1) (v.length - 1)) with hpd
    set kf : Fin v.length := ⟨k, hk⟩ with hkf
    rw [← Finset.add_sum_erase _ _ (Finset.mem_univ kf)]
    have hkfv : ((kf : Fin v.length) : ℕ) = k := rfl
    rw [if_pos hkfv]
    have hcongr : (∑ i ∈ Finset.univ.erase kf,
        (if (i : ℕ) = k then (1:ℚ) else v.get i + pd.getD i 0)) =
        ∑ i ∈ Finset.univ.erase kf, (v.get i + pd.getD i 0) := by
      apply Finset.sum_congr rfl
      intro i hi
      have hik : (i : ℕ) ≠ k := by
        intro hc
        exact (Finset.mem_erase.mp hi).1 (Fin.ext (by rw [hc]))
      rw [if_neg hik]
    rw [hcongr, Finset.sum_add_distrib]
    rw [Finset.sum_erase_eq_sub (Finset.mem_univ kf),
      Finset.sum_erase_eq_sub (Finset.mem_univ kf)]
    rw [sum_get_fin]
    have : (∑ i : Fin v.length, pd.getD i 0) = pd.sum :=
      sum_getD_of_length pd v.length hpdlen
    rw [this]
    have hgd : pd.getD (kf : ℕ) 0 = 0 := hpdk
    rw [hgd, hpdsum]
    ring

/-- Claim C4 (amended): after fixation-probability seeding with strategy
index `k` on the first player type's vector - provided that type has at
least two strategies - the vector has value exactly 1 at index `k` (so
index `k` receives none of the redistributed mass) and the vector's total
equals its total before seeding. -/
theorem claim_C4 (v : List ℚ) (k : ℕ) (hk : k < v.length)
    (h2 : 2 ≤ v.length) :
    (fixation_seed v k).isSome = true ∧
    ((fixation_seed v k).getD []).length = v.length ∧
    ((fixation_seed v k).getD []).getD k 0 = 1 ∧
    ((fixation_seed v k).getD []).sum = v.sum := by
  obtain ⟨w, h1, h2', h3, h4⟩ := fixation_seed_spec v k hk h2
  rw [h1]
  exact ⟨rfl, h2', h3, h4⟩

/-- Witness for C4 at `v = [3, 4]`, `k = 0`: seeding succeeds, keeps length
2, puts exactly 1 at index 0 and preserves the total 7. -/
theorem claim_C4_witness :
    (0 : ℕ) < 2 ∧
    (fixation_seed [(3:ℚ), 4] 0).isSome = true ∧
    ((fixation_seed [(3:ℚ), 4] 0).getD []).length = [(3:ℚ), 4].length ∧
    ((fixation_seed [(3:ℚ), 4] 0).getD []).getD 0 0 = 1 ∧
    ((fixation_seed [(3:ℚ), 4] 0).getD []).sum = ([(3:ℚ), 4]).sum := by
  have h := claim_C4 [(3:ℚ), 4] 0 (by norm_num) (by norm_num)
  exact ⟨by norm_num, h.1, h.2.1, h.2.2.1, h.2.2.2⟩

/-- Counterexample to C4 as stated: with a single strategy (`v = [5]`,
`k = 0`) the seeding yields `[1]`, whose total 1 is NOT the pre-seeding
total 5 - the 4 remaining individuals are silently lost because there is no
other strategy (and no last bucket) to absorb them. -/
theorem claim_C4_counterexample :
    fixation_seed [(5:ℚ)] 0 = some [1] ∧
    ¬ (([(1:ℚ)]).sum = ([(5:ℚ)]).sum) := by
  constructor
  · unfold fixation_seed
    rw [dif_pos (show 0 < [(5:ℚ)].length by norm_num)]
    norm_num [List.ofFn_succ]
  · norm_num

theorem validate_state_ok_val (cfg : Config) (s r : PopState)
    (h : validate_state cfg s = .ok r) : r = s := by
  unfold validate_state at h
  split at h
  · split at h
    · exact (Except.ok.inj h).symm
    · cases h
  · cases h

theorem validate_state_cases (cfg : Config) (s : PopState) :
    validate_state cfg s = .ok s ∨ ∃ e, validate_state cfg s = .error e := by
  unfold validate_state
  split
  · split
    · exact Or.inl rfl
    · exact Or.inr ⟨_, rfl⟩
  · exact Or.inr ⟨_, rfl⟩

theorem validate_state_ok_iff (cfg : Config) (s : PopState)
    (h1 : cfg.numPlayers.length = cfg.numPlayerTypes)
    (h2 : cfg.numStrats.length = cfg.numPlayerTypes) :
    validate_state cfg s = .ok s ↔
      (s.length = cfg.numPlayerTypes ∧
        ∀ i, i < s.length →
          (s.getD i []).sum = cfg.numPlayers.getD i 0 ∧
          (s.getD i []).length = cfg.numStrats.getD i 0) := by
  unfold validate_state
  by_cases hlen : s.length = cfg.numPlayerTypes
  · rw [if_pos hlen]
    have hzlen : (s.zip (cfg.numPlayers.zip cfg.numStrats)).length = s.length := by
      rw [List.length_zip, List.length_zip, h1, h2, hlen]
      omega
    constructor
    · intro h
      have hcond : ∀ pen ∈ s.zip (cfg.numPlayers.zip cfg.numStrats),
          pen.1.sum = pen.2.1 ∧ pen.1.length = pen.2.2 := by
        by_contra hC
        rw [if_neg hC] at h
        cases h
      refine ⟨hlen, ?_⟩
      intro i hi
      have hi2 : i < (s.zip (cfg.numPlayers.zip cfg.numStrats)).length := by
        rw [hzlen]; exact hi
      have hips : i < cfg.numPlayers.length := by omega
      have hins : i < cfg.numStrats.length := by omega
      have hel : (s.zip (cfg.numPlayers.zip cfg.numStrats))[i] =
          (s[i], (cfg.numPlayers[i], cfg.numStrats[i])) := by
        rw [List.getElem_zip, List.getElem_zip]
      have hmem := List.getElem_mem hi2
      rw [hel] at hmem
      have := hcond _ hmem
      rw [List.getD_eq_getElem s [] hi, List.getD_eq_getElem _ _ hips,
        List.getD_eq_getElem _ _ hins]
      exact this
    · intro ⟨_, hcond⟩
      rw [if_pos ?hc]
      case hc =>
        intro pen hpen
        obtain ⟨i, hi, hel⟩ := List.mem_iff_getElem.mp hpen
        have hi2 : i < s.length := by
          rw [hzlen] at hi; exact hi
        have hips : i < cfg.numPlayers.length := by omega
        have hins : i < cfg.numStrats.length := by omega
        have hel2 : (s.zip (cfg.numPlayers.zip cfg.numStrats))[i] =
            (s[i], (cfg.numPlayers[i], cfg.numStrats[i])) := by
          rw [List.getElem_zip, List.getElem_zip]
        rw [hel2] at hel
        subst hel
        have := hcond i hi2
        rw [List.getD_eq_getElem s [] hi2, List.getD_eq_getElem _ _ hips,
          List.getD_eq_getElem _ _ hins] at this
        exact this
  · rw [if_neg hlen]
    constructor
    · intro h
      cases h
    · intro ⟨hc, _⟩
      exact absurd hc hlen

/-- Claim C7: `validate_state` fails exactly when the number of player
types differs from the configuration, some type's vector sum differs from
its configured total, or some type's vector length differs from its
configured strategy count; otherwise it returns the state itself (the
list/tuple-to-numpy coercion changes only the representation, never a
value). -/
theorem claim_C7 (cfg : Config) (s : PopState)
    (h1 : cfg.numPlayers.length = cfg.numPlayerTypes)
    (h2 : cfg.numStrats.length = cfg.numPlayerTypes) :
    (∀ r, validate_state cfg s = .ok r → r = s) ∧
    (validate_state cfg s = .ok s ↔
      (s.length = cfg.numPlayerTypes ∧
        ∀ i, i < s.length →
          (s.getD i []).sum = cfg.numPlayers.getD i 0 ∧
          (s.getD i []).length = cfg.numStrats.getD i 0)) ∧
    ((∃ e, validate_state cfg s = .error e) ↔
      ¬ (s.length = cfg.numPlayerTypes ∧
        ∀ i, i < s.length →
          (s.getD i []).sum = cfg.numPlayers.getD i 0 ∧
          (s.getD i []).length = cfg.numStrats.getD i 0)) := by
  refine ⟨fun r h => validate_state_ok_val cfg s r h,
    validate_state_ok_iff cfg s h1 h2, ?_⟩
  constructor
  · intro ⟨e, he⟩ hcond
    have := (validate_state_ok_iff cfg s h1 h2).mpr hcond
    rw [this] at he
    cases he
  · intro hcond
    rcases validate_state_cases cfg s with h | h
    · exact absurd ((validate_state_ok_iff cfg s h1 h2).mp h) hcond
    · exact h

/-- Witness for C7: a 1-type configuration with strategy count 2 and total
2 accepts the state `[[1, 1]]` unchanged. -/
theorem claim_C7_witness :
    validate_state
      { numPlayerTypes := 1, numStrats := [2], numPlayers := [2],
        numberGroups := 1, rate := 0, uniDist := false,
        infinitePopSize := false, popSize := 2 }
      [[(1:ℚ), 1]] = .ok [[(1:ℚ), 1]] := by
  apply (claim_C7 _ [[(1:ℚ), 1]] rfl rfl).2.1.mpr
  refine ⟨rfl, ?_⟩
  intro i hi
  have h0 : i = 0 := by
    simp only [List.length_singleton] at hi
    omega
  subst h0
  constructor
  · norm_num
  · norm_num

/-- Claim C5, evaluated at the failing input: with strategy counts
`[1, 2]`, unit payoffs everywhere and state `[[1], [1, 1]]`,
`calculate_payoffs` returns average 2/3 because its inner loop bound is
`len(payoff[0]) = 1` for EVERY row, dropping the terms of player type 1
beyond strategy 0; the specification's formula over all (type, strategy)
pairs gives 1. -/
theorem claim_C5 :
    calculate_payoffs [1, 2] (fun _ _ _ => 1) [[(1:ℚ)], [1, 1]] =
      some ([[(1:ℚ)], [1, 1]], 2/3) ∧
    avg_payoff_spec [[(1:ℚ)], [1, 1]] [[(1:ℚ)], [1, 1]] = 1 ∧
    (2/3 : ℚ) ≠ 1 := by
  refine ⟨?_, ?_, by norm_num⟩
  · unfold calculate_payoffs
    norm_num [List.enum, List.enumFrom, List.range_succ, List.getD,
      List.replicate]
  · unfold avg_payoff_spec
    norm_num

theorem pyInt_intCast (n : ℤ) : pyInt ((n : ℤ) : ℚ) = n := by
  unfold pyInt
  split
  · exact Int.floor_intCast n
  · exact Int.ceil_intCast n

theorem sum_map_mul (c : ℚ) (l : List ℚ) :
    (l.map fun x => c * x).sum = c * l.sum := by
  induction l with
  | nil => simp
  | cons x xs ih =>
    simp only [List.map_cons, List.sum_cons, ih]
    ring

theorem dividedPop_nonneg (pop_size : ℤ) (number_groups : ℕ)
    (h : 0 ≤ pop_size) : 0 ≤ dividedPop pop_size number_groups := by
  unfold dividedPop
  split
  · have h1 : (0:ℚ) ≤ (pop_size : ℚ) / (number_groups : ℚ) :=
      div_nonneg (by exact_mod_cast h) (Nat.cast_nonneg _)
    rw [pyInt_of_nonneg h1]
    exact Int.le_floor.mpr (by exact_mod_cast h1)
  · exact h

/-- Claim C9 (amended): for a positive group count and a NON-NEGATIVE
frequency vector, construction succeeds exactly when the frequencies sum to
exactly 1 (`math.fsum` returns the correctly rounded sum, so the
`== 1.0` comparison is exact) and the population size is non-negative; in
particular it fails whenever the sum differs from 1 or the population size
is negative. -/
theorem claim_C9 (num_player_types : ℕ) (num_strats : List ℕ)
    (freqs : List ℚ) (number_groups : ℕ) (pop_size : ℤ) (rate : ℚ)
    (u : Bool) (hg : 1 ≤ number_groups) (hnn : ∀ x ∈ freqs, 0 ≤ x) :
    exceptOk (mkSimulator num_player_types num_strats freqs number_groups
      pop_size rate u) = true ↔ (freqs.sum = 1 ∧ 0 ≤ pop_size) := by
  constructor
  · intro h
    by_cases h1 : freqs.sum = 1
    · by_cases h2 : 0 ≤ pop_size
      · exact ⟨h1, h2⟩
      · exfalso
        unfold mkSimulator at h
        rw [if_pos h1, if_neg h2] at h
        simp [exceptOk] at h
    · exfalso
      unfold mkSimulator at h
      rw [if_neg h1] at h
      simp [exceptOk] at h
  · intro ⟨h1, h2⟩
    unfold mkSimulator
    rw [if_pos h1, if_pos h2]
    rw [if_neg (by omega : ¬ ((number_groups:ℤ) < pop_size ∧ number_groups = 0))]
    by_cases hpos : 0 < dividedPop pop_size number_groups
    · rw [if_pos hpos]
      have hnn2 : ∀ x ∈ freqs.map
          (fun x => (dividedPop pop_size number_groups : ℚ) * x), 0 ≤ x := by
        intro x hx
        obtain ⟨y, hy, rfl⟩ := List.mem_map.mp hx
        have hd : (0:ℚ) ≤ (dividedPop pop_size number_groups : ℚ) := by
          exact_mod_cast le_of_lt hpos
        exact mul_nonneg hd (hnn y hy)
      obtain ⟨out, hout, _, hsum⟩ := round_individuals_some _ hnn2
      simp only [hout]
      have hsum2 : out.sum = dividedPop pop_size number_groups := by
        rw [hsum, sum_map_mul, h1, mul_one, round5_intCast, pyInt_intCast]
      rw [if_pos hsum2]
      rfl
    · rw [if_neg hpos]
      rfl

/-- Witness for C9: one type, frequencies `[1]`, one group, population 10 -
construction succeeds. -/
theorem claim_C9_witness :
    exceptOk (mkSimulator 1 [2] [(1:ℚ)] 1 10 0 false) = true :=
  (claim_C9 1 [2] [(1:ℚ)] 1 10 0 false (by norm_num)
    (by intro x hx; simp at hx; simp [hx])).mpr ⟨by norm_num, by norm_num⟩

/-- Counterexample to C9 as stated: the frequency vector
`[-1/20, -1/20, 11/10]` sums to exactly 1 and the population size 10 is
non-negative, yet construction fails: truncation toward zero on the
negative entries makes the truncated total 11 exceed the target 10, the
deficit is negative, and `round_individuals`' final assertion fires. -/
theorem claim_C9_counterexample :
    ([(-1:ℚ)/20, -1/20, 11/10].sum = 1) ∧ ((0 : ℤ) ≤ 10) ∧
    exceptOk (mkSimulator 3 [2, 2, 2] [(-1:ℚ)/20, -1/20, 11/10] 1 10 0 false)
      = false := by
  refine ⟨by norm_num, by norm_num, ?_⟩
  have hdp : dividedPop 10 1 = 10 := by
    norm_num [dividedPop, pyInt]
  have hmap : [(-1:ℚ)/20, -1/20, 11/10].map (fun x => ((10:ℤ) : ℚ) * x) =
      [(-1:ℚ)/2, -1/2, 11] := by
    simp only [List.map]
    norm_num
  have hnone : round_individuals [(-1:ℚ)/2, -1/2, 11] = none := by
    have ht : pyInt (round5 (([(-1:ℚ)/2, -1/2, 11]).sum)) = 10 := by
      norm_num [pyInt, round5, pyRound]
    have hi : ([(-1:ℚ)/2, -1/2, 11]).map pyInt = [0, 0, 11] := by
      simp only [List.map]
      norm_num [pyInt, Int.ceil_eq_iff]
    unfold round_individuals
    simp only [ht, hi]
    norm_num
  unfold mkSimulator
  rw [if_pos (show [(-1:ℚ)/20, -1/20, 11/10].sum = 1 by norm_num)]
  rw [if_pos (show (0:ℤ) ≤ 10 by norm_num)]
  rw [if_neg (show ¬ (((1:ℕ):ℤ) < 10 ∧ (1:ℕ) = 0) by norm_num)]
  rw [hdp]
  rw [if_pos (show (0:ℤ) < 10 by norm_num)]
  simp only [hmap, hnone]
  rfl

/-- Claim C10: when the caller supplies a start state, the
`fixation_probability` and `strategy_indx` arguments (and the random draws)
have no effect whatsoever: `simulate` returns identically for every value
of them - no seeding is applied and the single-group precondition is never
checked.  In particular (second conjunct) a fixation request with TWO
groups and an out-of-range strategy index still succeeds on a valid
supplied state. -/
theorem claim_C10 :
    (∀ (cfg : Config) (f : GroupStates → Bool → ℚ → GroupStates × GroupStates)
      (n : ℕ) (s : GroupStates) (fix fix' : Bool) (k k' : ℕ)
      (draw draw' : ℕ → ℚ → ℕ → Vec),
      simulate cfg f n (some s) fix k draw =
        simulate cfg f n (some s) fix' k' draw') ∧
    exceptOk (simulate
      { numPlayerTypes := 1, numStrats := [1], numPlayers := [1],
        numberGroups := 2, rate := 0, uniDist := false,
        infinitePopSize := false, popSize := 2 }
      (fun st _ _ => (st, st)) 0 (some [[[(1:ℚ)]], [[(1:ℚ)]]]) true 99
      (fun _ _ _ => [])) = true := by
  constructor
  · intro cfg f n s fix fix' k k' draw draw'
    rfl
  · norm_num [simulate, runSim, setupStart, validateGroups, validate_state,
      runGens, reduceTraj, exceptOk]

theorem setup_fix_error (cfg : Config) (draw : ℕ → ℚ → ℕ → Vec) (k : ℕ)
    (hdrawlen : ∀ g a b, (draw g a b).length = b)
    (htypes : cfg.numPlayers ≠ [] ∧ cfg.numStrats ≠ [])
    (h : 1 < cfg.numberGroups ∨
      (cfg.numberGroups = 1 ∧ cfg.numStrats.getD 0 0 ≤ k)) :
    ∃ e, setupStart cfg draw none true k = .error e := by
  rcases h with hgt | ⟨hng1, hk⟩
  · refine ⟨"Fixation probability can only be computed for one group", ?_⟩
    simp only [setupStart]
    rw [if_pos trivial, if_neg (by omega : ¬ cfg.numberGroups = 1)]
  · obtain ⟨p, ps, hnp⟩ : ∃ p ps, cfg.numPlayers = p :: ps := by
      cases hc : cfg.numPlayers with
      | nil => exact absurd hc htypes.1
      | cons a as => exact ⟨a, as, rfl⟩
    obtain ⟨q, qs, hns⟩ : ∃ q qs, cfg.numStrats = q :: qs := by
      cases hc : cfg.numStrats with
      | nil => exact absurd hc htypes.2
      | cons a as => exact ⟨a, as, rfl⟩
    have hseed : fixation_seed (draw 0 p q) k = none := by
      unfold fixation_seed
      rw [dif_neg]
      rw [hdrawlen 0 p q]
      rw [hns] at hk
      simp only [List.getD_cons_zero] at hk
      omega
    refine ⟨"IndexError", ?_⟩
    simp only [setupStart, synthState, hng1, hnp, hns]
    norm_num [List.range_succ, hseed]

/-- Claim C8: with no caller-supplied start state, a fixation-probability
request fails during start-state setup - before any generation transition
is run - whenever more than one group is configured, or (with one group)
the strategy index is at or beyond the first player type's strategy count;
the result does not depend on the transition rule or the generation
count. -/
theorem claim_C8 (cfg : Config) (draw : ℕ → ℚ → ℕ → Vec) (k : ℕ)
    (hdrawlen : ∀ g a b, (draw g a b).length = b)
    (htypes : cfg.numPlayers ≠ [] ∧ cfg.numStrats ≠ [])
    (h : 1 < cfg.numberGroups ∨
      (cfg.numberGroups = 1 ∧ cfg.numStrats.getD 0 0 ≤ k)) :
    exceptOk (setupStart cfg draw none true k) = false ∧
    (∀ (f : GroupStates → Bool → ℚ → GroupStates × GroupStates) (n : ℕ),
      exceptOk (simulate cfg f n none true k draw) = false) ∧
    (∀ (f : GroupStates → Bool → ℚ → GroupStates × GroupStates) (n : ℕ)
      (f' : GroupStates → Bool → ℚ → GroupStates × GroupStates) (n' : ℕ),
      simulate cfg f n none true k draw =
        simulate cfg f' n' none true k draw) := by
  obtain ⟨e, he⟩ := setup_fix_error cfg draw k hdrawlen htypes h
  have hsim : ∀ (f : GroupStates → Bool → ℚ → GroupStates × GroupStates)
      (n : ℕ), simulate cfg f n none true k draw = .error e := by
    intro f n
    unfold simulate runSim
    rw [he]
  refine ⟨by rw [he]; rfl, fun f n => by rw [hsim f n]; rfl,
    fun f n f' n' => by rw [hsim f n, hsim f' n']⟩

/-- Witness for C8: two groups configured, fixation requested with no start
state - setup and simulate fail for arbitrary transition rules and
generation counts, identically. -/
theorem claim_C8_witness :
    exceptOk (setupStart
      { numPlayerTypes := 1, numStrats := [2], numPlayers := [2],
        numberGroups := 2, rate := 0, uniDist := false,
        infinitePopSize := false, popSize := 2 }
      (fun _ _ b => List.replicate b 0) none true 0) = false ∧
    exceptOk (simulate
      { numPlayerTypes := 1, numStrats := [2], numPlayers := [2],
        numberGroups := 2, rate := 0, uniDist := false,
        infinitePopSize := false, popSize := 2 }
      (fun st _ _ => (st, st)) 3 none true 0
      (fun _ _ b => List.replicate b 0)) = false ∧
    simulate
      { numPlayerTypes := 1, numStrats := [2], numPlayers := [2],
        numberGroups := 2, rate := 0, uniDist := false,
        infinitePopSize := false, popSize := 2 }
      (fun st _ _ => (st, st)) 3 none true 0
      (fun _ _ b => List.replicate b 0) =
    simulate
      { numPlayerTypes := 1, numStrats := [2], numPlayers := [2],
        numberGroups := 2, rate := 0, uniDist := false,
        infinitePopSize := false, popSize := 2 }
      (fun _ _ _ => ([], [])) 5 none true 0
      (fun _ _ b => List.replicate b 0) := by
  have h := claim_C8
    { numPlayerTypes := 1, numStrats := [2], numPlayers := [2],
      numberGroups := 2, rate := 0, uniDist := false,
      infinitePopSize := false, popSize := 2 }
    (fun _ _ b => List.replicate b 0) 0
    (fun _ _ b => List.length_replicate b 0)
    ⟨by simp, by simp⟩ (Or.inl (by norm_num))
  exact ⟨h.1, h.2.1 _ 3, h.2.2 _ 3 _ 5⟩

theorem validateGroups_ok (cfg : Config) :
    ∀ (s r : GroupStates), validateGroups cfg s = .ok r →
      r = s ∧ ∀ g ∈ s, validate_state cfg g = .ok g := by
  intro s
  induction s with
  | nil =>
    intro r h
    simp only [validateGroups] at h
    exact ⟨(Except.ok.inj h).symm, by simp⟩
  | cons x xs ih =>
    intro r h
    simp only [validateGroups] at h
    cases hx : validate_state cfg x with
    | error e => rw [hx] at h; cases h
    | ok v =>
      rw [hx] at h
      cases hxs : validateGroups cfg xs with
      | error e => rw [hxs] at h; cases h
      | ok vs =>
        rw [hxs] at h
        have hr : r = v :: vs := (Except.ok.inj h).symm
        have hvx : v = x := validate_state_ok_val cfg x v hx
        obtain ⟨hvs, hmem⟩ := ih vs hxs
        subst hvx
        subst hvs
        refine ⟨hr, ?_⟩
        intro g hg
        rcases List.mem_cons.mp hg with rfl | hg2
        · exact hx
        · exact hmem g hg2

theorem take_mem_subset {α : Type} (l : List α) (n : ℕ) :
    ∀ x ∈ l.take n, x ∈ l := fun _ hx => List.take_subset n l hx

theorem runGens_ok (cfg : Config)
    (f : GroupStates → Bool → ℚ → GroupStates × GroupStates) :
    ∀ (n : ℕ) (st : GroupStates) (ss ps : List GroupStates),
      runGens cfg f st n = .ok (ss, ps) →
      ss.length = n ∧ ps.length = n ∧
      (∀ gs ∈ ss, gs.length = cfg.numberGroups ∧
        ∀ g ∈ gs, validate_state cfg g = .ok g) ∧
      (PayoffShaped cfg f →
        ∀ p ∈ ps, p.length = cfg.numberGroups ∧
          ∀ snap ∈ p, snap.length = cfg.numPlayerTypes ∧
            ∀ t, t < cfg.numPlayerTypes →
              (snap.getD t []).length = cfg.numStrats.getD t 0) := by
  intro n
  induction n with
  | zero =>
    intro st ss ps h
    simp only [runGens] at h
    have h2 := Except.ok.inj h
    have hss : ss = [] := congrArg Prod.fst h2 |>.symm
    have hps : ps = [] := congrArg Prod.snd h2 |>.symm
    subst hss
    subst hps
    exact ⟨rfl, rfl, by simp, fun _ => by simp⟩
  | succ m ih =>
    intro st ss ps h
    simp only [runGens] at h
    split at h
    case isTrue hc =>
      split at h
      next e hv => cases h
      next r hv =>
        split at h
        next e2 hr => cases h
        next ss' ps' hr =>
          have h2 := Except.ok.inj h
          have hss : ss = r :: ss' := congrArg Prod.fst h2 |>.symm
          have hps : ps = (f st (decide (1 < cfg.numberGroups))
              cfg.rate).2.take cfg.numberGroups :: ps' := congrArg Prod.snd h2 |>.symm
          subst hss
          subst hps
          obtain ⟨hrv, hrmem⟩ := validateGroups_ok cfg _ r hv
          obtain ⟨ihl, ihpl, ihs, ihp⟩ := ih r ss' ps' hr
          refine ⟨by simp [ihl], by simp [ihpl], ?_, ?_⟩
          · intro gs hgs
            rcases List.mem_cons.mp hgs with rfl | hgs2
            · constructor
              · rw [hrv, List.length_take]
                omega
              · intro g hg
                rw [hrv] at hg
                exact hrmem g hg
            · exact ihs gs hgs2
          · intro hshape
            intro p hp
            rcases List.mem_cons.mp hp with rfl | hp2
            · constructor
              · rw [List.length_take]
                omega
              · intro snap hsnap
                have hsnap2 := take_mem_subset _ _ snap hsnap
                exact hshape st _ _ snap hsnap2
            · exact ihp hshape p hp2
    case isFalse hc =>
      cases h

theorem fixation_seed_facts (v : List ℚ) (k : ℕ) (w : List ℚ)
    (h : fixation_seed v k = some w) :
    k < v.length ∧ w.length = v.length ∧ (2 ≤ v.length → w.sum = v.sum) ∧
    w.getD k 0 = 1 := by
  by_cases hk : k < v.length
  · have hofn : w = List.ofFn fun i : Fin v.length =>
        if (i : ℕ) = k then 1
        else v.get i + (pyInsert k 0 (seedBuckets (v.get ⟨k, hk⟩ - 1)
          (v.length - 1))).getD i 0 := by
      unfold fixation_seed at h
      rw [dif_pos hk] at h
      exact (Option.some.inj h).symm
    refine ⟨hk, by rw [hofn]; exact List.length_ofFn _, ?_, ?_⟩
    · intro h2
      obtain ⟨w', hw', _, _, hsum⟩ := fixation_seed_spec v k hk h2
      rw [h] at hw'
      rw [Option.some.inj hw']
      exact hsum
    · rw [hofn]
      rw [List.getD_eq_getElem _ _ (by rw [List.length_ofFn]; exact hk)]
      rw [List.getElem_ofFn]
      simp
  · unfold fixation_seed at h
    rw [dif_neg hk] at h
    cases h

theorem getD_map_zip (A : List ℚ) (B : List ℕ) (F : ℚ × ℕ → Vec) (t : ℕ)
    (ht : t < A.length) (ht2 : t < B.length) :
    ((A.zip B).map F).getD t [] = F (A.getD t 0, B.getD t 0) := by
  have hzl : t < (A.zip B).length := by
    rw [List.length_zip]
    omega
  have hml : t < ((A.zip B).map F).length := by
    rw [List.length_map]
    exact hzl
  rw [List.getD_eq_getElem _ _ hml, List.getElem_map, List.getElem_zip,
    List.getD_eq_getElem _ _ ht, List.getD_eq_getElem _ _ ht2]

theorem getD_range_map {α : Type} (n : ℕ) (F : ℕ → α) (d : α) (t : ℕ)
    (ht : t < n) : ((List.range n).map F).getD t d = F t := by
  have h1 : t < ((List.range n).map F).length := by
    rw [List.length_map, List.length_range]
    exact ht
  rw [List.getD_eq_getElem _ _ h1, List.getElem_map, List.getElem_range]

theorem synth_group_facts (cfg : Config) (draw : ℕ → ℚ → ℕ → Vec)
    (g : ℕ) (hwf : WF cfg) :
    ((cfg.numPlayers.zip cfg.numStrats).map fun pns =>
      draw g pns.1 pns.2).length = cfg.numPlayerTypes ∧
    ∀ t, t < cfg.numPlayerTypes →
      (((cfg.numPlayers.zip cfg.numStrats).map fun pns =>
        draw g pns.1 pns.2).getD t []) =
        draw g (cfg.numPlayers.getD t 0) (cfg.numStrats.getD t 0) := by
  obtain ⟨hw1, hw2, _⟩ := hwf
  constructor
  · rw [List.length_map, List.length_zip, hw1, hw2]
    omega
  · intro t ht
    exact getD_map_zip _ _ _ t (by omega) (by omega)

theorem setupStart_ok (cfg : Config) (draw : ℕ → ℚ → ℕ → Vec)
    (start : Option GroupStates) (fix : Bool) (k : ℕ) (st0 : GroupStates)
    (hwf : WF cfg)
    (hdrawlen : ∀ g t, t < cfg.numPlayerTypes →
      (draw g (cfg.numPlayers.getD t 0) (cfg.numStrats.getD t 0)).length =
        cfg.numStrats.getD t 0)
    (hdrawsum : ∀ g t, t < cfg.numPlayerTypes →
      (draw g (cfg.numPlayers.getD t 0) (cfg.numStrats.getD t 0)).sum =
        cfg.numPlayers.getD t 0)
    (hfix2 : fix = true → 2 ≤ cfg.numStrats.getD 0 0)
    (h : setupStart cfg draw start fix k = .ok st0) :
    st0.length = cfg.numberGroups ∧
    ∀ gs ∈ st0, gs.length = cfg.numPlayerTypes ∧
      ∀ t, t < cfg.numPlayerTypes →
        (gs.getD t []).length = cfg.numStrats.getD t 0 ∧
        (gs.getD t []).sum = cfg.numPlayers.getD t 0 := by
  obtain ⟨hw1, hw2, hw3⟩ := hwf
  cases start with
  | some s =>
    simp only [setupStart] at h
    split at h
    case isFalse => cases h
    case isTrue hlen =>
      obtain ⟨hst, hmem⟩ := validateGroups_ok cfg s st0 h
      subst hst
      refine ⟨hlen, ?_⟩
      intro gs hgs
      have hok := hmem gs hgs
      obtain ⟨hglen, hfacts⟩ :=
        (validate_state_ok_iff cfg gs hw1 hw2).mp hok
      refine ⟨hglen, ?_⟩
      intro t ht
      have ht2 : t < gs.length := by omega
      obtain ⟨hsum, hlen2⟩ := hfacts t ht2
      exact ⟨hlen2, hsum⟩
  | none =>
    cases fix with
    | false =>
      simp only [setupStart] at h
      rw [if_neg (fun hc => Bool.noConfusion hc)] at h
      have hst : st0 = synthState cfg draw := (Except.ok.inj h).symm
      subst hst
      constructor
      · simp [synthState]
      · intro gs hgs
        unfold synthState at hgs
        obtain ⟨g, hgmem, rfl⟩ := List.mem_map.mp hgs
        obtain ⟨hlen1, hget⟩ := synth_group_facts cfg draw g ⟨hw1, hw2, hw3⟩
        refine ⟨hlen1, ?_⟩
        intro t ht
        rw [hget t ht]
        exact ⟨hdrawlen g t ht, hdrawsum g t ht⟩
    | true =>
      simp only [setupStart] at h
      rw [if_pos trivial] at h
      by_cases hng : cfg.numberGroups = 1
      · rw [if_pos hng] at h
        have hsynth : synthState cfg draw =
            [(cfg.numPlayers.zip cfg.numStrats).map fun pns =>
              draw 0 pns.1 pns.2] := by
          unfold synthState
          rw [hng]
          rfl
        rw [hsynth] at h
        cases hnp : cfg.numPlayers with
        | nil =>
          rw [hnp] at h
          simp only [List.zip_nil_left, List.map_nil] at h
          cases h
        | cons p pres =>
          cases hns : cfg.numStrats with
          | nil =>
            rw [hnp, hns] at h
            simp only [List.zip_nil_right, List.map_nil] at h
            cases h
          | cons q qres =>
            rw [hnp, hns] at h
            simp only [List.zip_cons_cons, List.map_cons] at h
            cases hseed : fixation_seed (draw 0 p q) k with
            | none =>
              rw [hseed] at h
              cases h
            | some w =>
              rw [hseed] at h
              have hst : st0 = [w :: (pres.zip qres).map
                  (fun pns => draw 0 pns.1 pns.2)] := (Except.ok.inj h).symm
              subst hst
              have htypes1 : 1 ≤ cfg.numPlayerTypes := by
                rw [← hw1, hnp]
                simp
              have hp0 : cfg.numPlayers.getD 0 0 = p := by rw [hnp]; rfl
              have hq0 : cfg.numStrats.getD 0 0 = q := by rw [hns]; rfl
              have hv0 : draw 0 p q =
                  draw 0 (cfg.numPlayers.getD 0 0) (cfg.numStrats.getD 0 0) := by
                rw [hp0, hq0]
              obtain ⟨hkv, hwlen, hwsum, _⟩ :=
                fixation_seed_facts (draw 0 p q) k w hseed
              have hv0len : (draw 0 p q).length = q := by
                have hdl := hdrawlen 0 0 (by omega)
                rw [hp0, hq0] at hdl
                exact hdl
              have hwsum2 : w.sum = p := by
                have hds := hdrawsum 0 0 (by omega)
                rw [hp0, hq0] at hds
                have h2q : 2 ≤ (draw 0 p q).length := by
                  rw [hv0len]
                  have := hfix2 rfl
                  rw [hq0] at this
                  exact this
                exact (hwsum h2q).trans hds
              obtain ⟨hglen, hgget⟩ := synth_group_facts cfg draw 0 ⟨hw1, hw2, hw3⟩
              refine ⟨by simpa using hng.symm, ?_⟩
              intro gs hgs
              have hgs2 : gs = w :: (pres.zip qres).map
                  (fun pns => draw 0 pns.1 pns.2) := by simpa using hgs
              subst hgs2
              have hzip : (cfg.numPlayers.zip cfg.numStrats).map
                  (fun pns => draw 0 pns.1 pns.2) =
                  draw 0 p q :: (pres.zip qres).map
                    (fun pns => draw 0 pns.1 pns.2) := by
                rw [hnp, hns]
                simp [List.zip_cons_cons]
              refine ⟨?_, ?_⟩
              · have h1 := hglen
                rw [hzip] at h1
                simp only [List.length_cons] at h1 ⊢
                omega
              · intro t ht
                cases t with
                | zero =>
                  simp only [List.getD_cons_zero]
                  exact ⟨by rw [hwlen, hv0len], hwsum2⟩
                | succ tt =>
                  simp only [List.getD_cons_succ]
                  have htt : tt < pres.length := by
                    have hl : (p :: pres).length = cfg.numPlayerTypes := by
                      rw [← hnp, hw1]
                    simp only [List.length_cons] at hl
                    omega
                  have htt2 : tt < qres.length := by
                    have hl : (q :: qres).length = cfg.numPlayerTypes := by
                      rw [← hns, hw2]
                    simp only [List.length_cons] at hl
                    omega
                  rw [getD_map_zip pres qres _ tt htt htt2]
                  have hdl := hdrawlen 0 (tt + 1) ht
                  have hds := hdrawsum 0 (tt + 1) ht
                  rw [hnp, hns] at hdl hds
                  simp only [List.getD_cons_succ] at hdl hds
                  exact ⟨hdl, hds⟩
      · rw [if_neg hng] at h
        cases h

/-- Claim C2 (amended): in every run that completes, every stored
generation - including generation 0 - has, in every group, each player
type's vector summing to that type's configured total
`self.num_players[t]`, PROVIDED the initial state is caller-supplied or
synthesized by draws that sum to the type's total (numpy's multinomial
draws always do; the `uniDist` uniform path does not), and the first player
type has at least two strategies whenever fixation seeding is requested. -/
theorem claim_C2 (cfg : Config)
    (f : GroupStates → Bool → ℚ → GroupStates × GroupStates)
    (draw : ℕ → ℚ → ℕ → Vec) (start : Option GroupStates) (fix : Bool)
    (k n : ℕ) (traj ptraj : List GroupStates)
    (hwf : WF cfg)
    (hdrawlen : ∀ g t, t < cfg.numPlayerTypes →
      (draw g (cfg.numPlayers.getD t 0) (cfg.numStrats.getD t 0)).length =
        cfg.numStrats.getD t 0)
    (hdrawsum : ∀ g t, t < cfg.numPlayerTypes →
      (draw g (cfg.numPlayers.getD t 0) (cfg.numStrats.getD t 0)).sum =
        cfg.numPlayers.getD t 0)
    (hfix2 : fix = true → 2 ≤ cfg.numStrats.getD 0 0)
    (hrun : runSim cfg f n start fix k draw = .ok (traj, ptraj)) :
    ∀ gs ∈ traj, ∀ g ∈ gs, ∀ t, t < cfg.numPlayerTypes →
      (g.getD t []).sum = cfg.numPlayers.getD t 0 := by
  unfold runSim at hrun
  split at hrun
  next e hset => cases hrun
  next st0 hset =>
    split at hrun
    next e hrg => cases hrun
    next ss ps hrg =>
      have h2 := Except.ok.inj hrun
      have htraj : traj = st0 :: ss := congrArg Prod.fst h2 |>.symm
      subst htraj
      intro gs hgs g hg t ht
      rcases List.mem_cons.mp hgs with rfl | hgs2
      · obtain ⟨_, hfacts⟩ := setupStart_ok cfg draw start fix k gs hwf
          hdrawlen hdrawsum hfix2 hset
        exact ((hfacts g hg).2 t ht).2
      · obtain ⟨_, _, hvs, _⟩ := runGens_ok cfg f n st0 ss ps hrg
        obtain ⟨_, hval⟩ := hvs gs hgs2
        obtain ⟨hglen, hfacts⟩ :=
          (validate_state_ok_iff cfg g hwf.1 hwf.2.1).mp (hval g hg)
        exact (hfacts t (by omega)).1

/-- Counterexample to C2 as stated: a finite-population run (pop_size 10,
one type with two strategies, one group) constructed with `uniDist = true`.
The uniform path draws `np.random.uniform(0, 1, n_s)` WITHOUT scaling -
`[1/2, 1/2]` is a possible draw - so the stored generation-0 vector sums to
1, not to the configured total 10. -/
theorem claim_C2_counterexample :
    mkSimulator 1 [2] [(1:ℚ)] 1 10 0 true =
      .ok { numPlayerTypes := 1, numStrats := [2], numPlayers := [10],
            numberGroups := 1, rate := 0, uniDist := true,
            infinitePopSize := false, popSize := 10 } ∧
    runSim
      { numPlayerTypes := 1, numStrats := [2], numPlayers := [10],
        numberGroups := 1, rate := 0, uniDist := true,
        infinitePopSize := false, popSize := 10 }
      (fun st _ _ => (st, st)) 0 none false 0 (fun _ _ _ => [(1:ℚ)/2, 1/2]) =
      .ok ([[[[(1:ℚ)/2, 1/2]]]], [[[[(0:ℚ), 0]]]]) ∧
    ¬ (([(1:ℚ)/2, 1/2]).sum = (10:ℚ)) := by
  refine ⟨?_, ?_, by norm_num⟩
  · have hdp : dividedPop 10 1 = 10 := by norm_num [dividedPop, pyInt]
    have hsome : round_individuals [(10:ℚ)] = some [10] := by
      have ht : pyInt (round5 (([(10:ℚ)]).sum)) = 10 := by
        norm_num [pyInt, round5, pyRound]
      have hi : ([(10:ℚ)]).map pyInt = [10] := by
        simp only [List.map]
        norm_num [pyInt]
      unfold round_individuals
      simp only [ht, hi]
      norm_num
    have hmap : [(1:ℚ)].map (fun x => ((10:ℤ) : ℚ) * x) = [(10:ℚ)] := by
      simp only [List.map]
      norm_num
    unfold mkSimulator
    rw [if_pos (show [(1:ℚ)].sum = 1 by norm_num)]
    rw [if_pos (show (0:ℤ) ≤ 10 by norm_num)]
    rw [if_neg (show ¬ (((1:ℕ):ℤ) < 10 ∧ (1:ℕ) = 0) by norm_num)]
    rw [hdp]
    rw [if_pos (show (0:ℤ) < 10 by norm_num)]
    simp only [hmap, hsome]
    norm_num
  · norm_num [runSim, setupStart, synthState, initialPayoffs, runGens,
      List.range_succ, List.replicate]

/-- Witness for C2 at a multinomial-style draw `[5, 5]` (a possible
`np.random.multinomial(10, [1/2, 1/2])` outcome): the run completes and the
generation-0 type-0 vector sums to the configured total 10. -/
theorem claim_C2_witness :
    runSim
      { numPlayerTypes := 1, numStrats := [2], numPlayers := [10],
        numberGroups := 1, rate := 0, uniDist := false,
        infinitePopSize := false, popSize := 10 }
      (fun st _ _ => (st, st)) 1 none false 0 (fun _ _ _ => [(5:ℚ), 5]) =
      .ok ([[[[(5:ℚ), 5]]], [[[(5:ℚ), 5]]]],
        [[[[(0:ℚ), 0]]], [[[(5:ℚ), 5]]]]) ∧
    ([(5:ℚ), 5]).sum = [(10:ℚ)].getD 0 0 := by
  have hrun : runSim
      { numPlayerTypes := 1, numStrats := [2], numPlayers := [10],
        numberGroups := 1, rate := 0, uniDist := false,
        infinitePopSize := false, popSize := 10 }
      (fun st _ _ => (st, st)) 1 none false 0 (fun _ _ _ => [(5:ℚ), 5]) =
      .ok ([[[[(5:ℚ), 5]]], [[[(5:ℚ), 5]]]],
        [[[[(0:ℚ), 0]]], [[[(5:ℚ), 5]]]]) := by
    norm_num [runSim, setupStart, synthState, initialPayoffs, runGens,
      validateGroups, validate_state, List.range_succ, List.replicate]
  refine ⟨hrun, ?_⟩
  exact claim_C2 _ _ _ none false 0 1 _ _
    ⟨rfl, rfl, by norm_num⟩
    (by
      intro g t ht
      have h0 : t = 0 := by
        have ht2 : t < 1 := ht
        omega
      subst h0
      norm_num [List.getD])
    (by
      intro g t ht
      have h0 : t = 0 := by
        have ht2 : t < 1 := ht
        omega
      subst h0
      norm_num [List.getD])
    (by simp)
    hrun
    [[[(5:ℚ), 5]]] (by simp) [[(5:ℚ), 5]] (by simp) 0 (by norm_num)

theorem getD_mem {α : Type} (l : List α) (i : ℕ) (d : α) (h : i < l.length) :
    l.getD i d ∈ l := by
  rw [List.getD_eq_getElem _ _ h]
  exact List.getElem_mem h

theorem vadd_length (a b : Vec) (h : b.length = a.length) :
    (vadd a b).length = a.length := by
  simp [vadd, h]

theorem vadd_getD (a b : Vec) (h : b.length = a.length) (s : ℕ)
    (hs : s < a.length) : (vadd a b).getD s 0 = a.getD s 0 + b.getD s 0 := by
  have h1 : s < (vadd a b).length := by
    rw [vadd_length a b h]
    exact hs
  rw [List.getD_eq_getElem _ _ h1]
  unfold vadd
  rw [List.getElem_zipWith]
  rw [List.getD_eq_getElem _ _ hs, List.getD_eq_getElem _ _ (by omega)]

theorem foldl_vadd_facts (vs : List Vec) :
    ∀ (acc : Vec), (∀ v ∈ vs, v.length = acc.length) →
      (vs.foldl vadd acc).length = acc.length ∧
      ∀ s, s < acc.length →
        (vs.foldl vadd acc).getD s 0 =
          acc.getD s 0 + (vs.map fun v => v.getD s 0).sum := by
  induction vs with
  | nil =>
    intro acc _
    exact ⟨rfl, by simp⟩
  | cons v vs ih =>
    intro acc hlen
    have hv : v.length = acc.length := hlen v (by simp)
    have hacc2 : (vadd acc v).length = acc.length := vadd_length acc v hv
    have hrest : ∀ u ∈ vs, u.length = (vadd acc v).length := by
      intro u hu
      rw [hacc2]
      exact hlen u (by simp [hu])
    obtain ⟨ihl, ihg⟩ := ih (vadd acc v) hrest
    constructor
    · simp only [List.foldl_cons]
      rw [ihl, hacc2]
    · intro s hs
      simp only [List.foldl_cons, List.map_cons, List.sum_cons]
      rw [ihg s (by rw [hacc2]; exact hs)]
      rw [vadd_getD acc v hv s hs]
      ring

theorem vsum_facts (vs : List Vec) (L : ℕ) (hne : vs ≠ [])
    (hlen : ∀ v ∈ vs, v.length = L) :
    (vsum vs).length = L ∧
    ∀ s, s < L → (vsum vs).getD s 0 = (vs.map fun v => v.getD s 0).sum := by
  cases vs with
  | nil => cases hne rfl
  | cons h t =>
    have hh : h.length = L := hlen h (by simp)
    have hrest : ∀ v ∈ t, v.length = h.length := by
      intro v hv
      rw [hh]
      exact hlen v (by simp [hv])
    obtain ⟨fl, fg⟩ := foldl_vadd_facts t h hrest
    constructor
    · unfold vsum
      rw [fl, hh]
    · intro s hs
      unfold vsum
      rw [fg s (by omega)]
      simp only [List.map_cons, List.sum_cons]

theorem groupAvg_getD (ng : ℕ) (entry : GroupStates) (t L : ℕ)
    (hng : 1 ≤ ng)
    (hlen : ∀ j, j < ng → ((entry.getD j []).getD t []).length = L)
    (s : ℕ) (hs : s < L) :
    (groupAvg ng entry t).getD s 0 =
      ((List.range ng).map fun j =>
        ((entry.getD j []).getD t []).getD s 0).sum / (ng : ℚ) := by
  unfold groupAvg
  set vs := (List.range ng).map fun j => (entry.getD j []).getD t [] with hvs
  have hne : vs ≠ [] := by
    rw [hvs]
    intro hc
    have hlc := congrArg List.length hc
    simp only [List.length_map, List.length_range, List.length_nil] at hlc
    omega
  have hl : ∀ v ∈ vs, v.length = L := by
    intro v hv
    rw [hvs] at hv
    obtain ⟨j, hj, rfl⟩ := List.mem_map.mp hv
    exact hlen j (List.mem_range.mp hj)
  obtain ⟨vl, vg⟩ := vsum_facts vs L hne hl
  have hsl : s < (vsum vs).length := by
    rw [vl]
    exact hs
  rw [List.getD_eq_getElem _ _ (by rw [List.length_map]; exact hsl)]
  rw [List.getElem_map]
  rw [← List.getD_eq_getElem _ _ hsl]
  rw [vg s hs]
  rw [hvs, List.map_map]
  rfl

theorem reduceTraj_length (cfg : Config) (traj : List GroupStates) (n : ℕ) :
    (reduceTraj cfg traj n).length = cfg.numPlayerTypes := by
  simp [reduceTraj]

theorem reduceTraj_getD (cfg : Config) (traj : List GroupStates) (n t : ℕ)
    (ht : t < cfg.numPlayerTypes) :
    (reduceTraj cfg traj n).getD t [] =
      (List.range n).map fun i =>
        groupAvg cfg.numberGroups (traj.getD i []) t := by
  unfold reduceTraj
  exact getD_range_map _ _ _ t ht

theorem initialPayoffs_facts (cfg : Config) (hwf : WF cfg) :
    (initialPayoffs cfg).length = cfg.numberGroups ∧
    ∀ p ∈ initialPayoffs cfg, p.length = cfg.numPlayerTypes ∧
      ∀ t, t < cfg.numPlayerTypes →
        (p.getD t []).length = cfg.numStrats.getD t 0 := by
  obtain ⟨hw1, hw2, _⟩ := hwf
  constructor
  · simp [initialPayoffs]
  · intro p hp
    unfold initialPayoffs at hp
    obtain ⟨g, _, rfl⟩ := List.mem_map.mp hp
    constructor
    · rw [List.length_map, List.length_zip]
      omega
    · intro t ht
      rw [getD_map_zip _ _ _ t (by omega) (by omega)]
      simp

theorem runSim_shapes (cfg : Config)
    (f : GroupStates → Bool → ℚ → GroupStates × GroupStates)
    (draw : ℕ → ℚ → ℕ → Vec) (start : Option GroupStates) (fix : Bool)
    (k n : ℕ) (traj ptraj : List GroupStates)
    (hwf : WF cfg)
    (hdrawlen : ∀ g t, t < cfg.numPlayerTypes →
      (draw g (cfg.numPlayers.getD t 0) (cfg.numStrats.getD t 0)).length =
        cfg.numStrats.getD t 0)
    (hdrawsum : ∀ g t, t < cfg.numPlayerTypes →
      (draw g (cfg.numPlayers.getD t 0) (cfg.numStrats.getD t 0)).sum =
        cfg.numPlayers.getD t 0)
    (hfix2 : fix = true → 2 ≤ cfg.numStrats.getD 0 0)
    (hpshape : PayoffShaped cfg f)
    (hrun : runSim cfg f n start fix k draw = .ok (traj, ptraj)) :
    traj.length = n + 1 ∧ ptraj.length = n + 1 ∧
    (∀ gs ∈ traj, gs.length = cfg.numberGroups ∧
      ∀ g ∈ gs, ∀ t, t < cfg.numPlayerTypes →
        (g.getD t []).length = cfg.numStrats.getD t 0) ∧
    (∀ p ∈ ptraj, p.length = cfg.numberGroups ∧
      ∀ snap ∈ p, ∀ t, t < cfg.numPlayerTypes →
        (snap.getD t []).length = cfg.numStrats.getD t 0) := by
  unfold runSim at hrun
  split at hrun
  next e hset => cases hrun
  next st0 hset =>
    split at hrun
    next e hrg => cases hrun
    next ss ps hrg =>
      have h2 := Except.ok.inj hrun
      have htraj : traj = st0 :: ss := congrArg Prod.fst h2 |>.symm
      have hptraj : ptraj = initialPayoffs cfg :: ps :=
        congrArg Prod.snd h2 |>.symm
      subst htraj
      subst hptraj
      obtain ⟨hssl, hpsl, hvs, hpp⟩ := runGens_ok cfg f n st0 ss ps hrg
      obtain ⟨hst0l, hst0f⟩ := setupStart_ok cfg draw start fix k st0 hwf
        hdrawlen hdrawsum hfix2 hset
      refine ⟨by simp [hssl], by simp [hpsl], ?_, ?_⟩
      · intro gs hgs
        rcases List.mem_cons.mp hgs with rfl | hgs2
        · refine ⟨hst0l, ?_⟩
          intro g hg t ht
          exact ((hst0f g hg).2 t ht).1
        · obtain ⟨hgl, hval⟩ := hvs gs hgs2
          refine ⟨hgl, ?_⟩
          intro g hg t ht
          obtain ⟨hglen, hfacts⟩ :=
            (validate_state_ok_iff cfg g hwf.1 hwf.2.1).mp (hval g hg)
          exact (hfacts t (by omega)).2
      · intro p hp
        rcases List.mem_cons.mp hp with rfl | hp2
        · obtain ⟨hl, hf⟩ := initialPayoffs_facts cfg hwf
          refine ⟨hl, ?_⟩
          intro snap hsnap t ht
          exact (hf snap hsnap).2 t ht
        · obtain ⟨hl, hf⟩ := hpp hpshape p hp2
          refine ⟨hl, ?_⟩
          intro snap hsnap t ht
          exact (hf snap hsnap).2 t ht

/-- Claim C3 (amended): each per-type trajectory returned by `simulate` has
`num_gens` entries, covering generations 0 through `num_gens - 1` (the
final generation's entry is NOT included - the reduction loops over
`range(num_gens)` while `num_gens + 1` raw entries exist), and for every
covered generation `g`, player type `t` and strategy `s`, the returned
value is the arithmetic mean over the `number_groups` groups of the raw
per-group values at `(g, t, s)` - for states and payoffs alike. -/
theorem claim_C3 (cfg : Config)
    (f : GroupStates → Bool → ℚ → GroupStates × GroupStates)
    (draw : ℕ → ℚ → ℕ → Vec) (start : Option GroupStates) (fix : Bool)
    (k n : ℕ) (traj ptraj : List GroupStates)
    (hwf : WF cfg)
    (hdrawlen : ∀ g t, t < cfg.numPlayerTypes →
      (draw g (cfg.numPlayers.getD t 0) (cfg.numStrats.getD t 0)).length =
        cfg.numStrats.getD t 0)
    (hdrawsum : ∀ g t, t < cfg.numPlayerTypes →
      (draw g (cfg.numPlayers.getD t 0) (cfg.numStrats.getD t 0)).sum =
        cfg.numPlayers.getD t 0)
    (hfix2 : fix = true → 2 ≤ cfg.numStrats.getD 0 0)
    (hpshape : PayoffShaped cfg f)
    (hrun : runSim cfg f n start fix k draw = .ok (traj, ptraj)) :
    simulate cfg f n start fix k draw =
      .ok (reduceTraj cfg traj n, reduceTraj cfg ptraj n) ∧
    (reduceTraj cfg traj n).length = cfg.numPlayerTypes ∧
    (reduceTraj cfg ptraj n).length = cfg.numPlayerTypes ∧
    ∀ t, t < cfg.numPlayerTypes →
      ((reduceTraj cfg traj n).getD t []).length = n ∧
      ((reduceTraj cfg ptraj n).getD t []).length = n ∧
      ∀ g, g < n → ∀ s, s < cfg.numStrats.getD t 0 →
        (((reduceTraj cfg traj n).getD t []).getD g []).getD s 0 =
          ((List.range cfg.numberGroups).map fun j =>
            (((traj.getD g []).getD j []).getD t []).getD s 0).sum /
            (cfg.numberGroups : ℚ) ∧
        (((reduceTraj cfg ptraj n).getD t []).getD g []).getD s 0 =
          ((List.range cfg.numberGroups).map fun j =>
            (((ptraj.getD g []).getD j []).getD t []).getD s 0).sum /
            (cfg.numberGroups : ℚ) := by
  obtain ⟨htl, hpl, hts, hps⟩ := runSim_shapes cfg f draw start fix k n
    traj ptraj hwf hdrawlen hdrawsum hfix2 hpshape hrun
  refine ⟨?_, reduceTraj_length cfg traj n, reduceTraj_length cfg ptraj n, ?_⟩
  · unfold simulate
    rw [hrun]
  · intro t ht
    rw [reduceTraj_getD cfg traj n t ht, reduceTraj_getD cfg ptraj n t ht]
    refine ⟨by simp, by simp, ?_⟩
    intro g hg s hs
    rw [getD_range_map n _ [] g hg, getD_range_map n _ [] g hg]
    constructor
    · apply groupAvg_getD cfg.numberGroups (traj.getD g [])
        t (cfg.numStrats.getD t 0) hwf.2.2 ?_ s hs
      intro j hj
      have hgmem : traj.getD g [] ∈ traj := getD_mem traj g [] (by omega)
      obtain ⟨hgl, hfacts⟩ := hts (traj.getD g []) hgmem
      have hjmem : (traj.getD g []).getD j [] ∈ traj.getD g [] :=
        getD_mem _ j [] (by omega)
      exact hfacts _ hjmem t ht
    · apply groupAvg_getD cfg.numberGroups (ptraj.getD g [])
        t (cfg.numStrats.getD t 0) hwf.2.2 ?_ s hs
      intro j hj
      have hgmem : ptraj.getD g [] ∈ ptraj := getD_mem ptraj g [] (by omega)
      obtain ⟨hgl, hfacts⟩ := hps (ptraj.getD g []) hgmem
      have hjmem : (ptraj.getD g []).getD j [] ∈ ptraj.getD g [] :=
        getD_mem _ j [] (by omega)
      exact hfacts _ hjmem t ht

/-- Counterexample to C3 as stated: a 1-generation run returns per-type
trajectories with exactly ONE entry (generation 0 only), not
`num_gens + 1 = 2` - the reduction loops over `range(num_gens)` and drops
the final generation. -/
theorem claim_C3_counterexample :
    simulate
      { numPlayerTypes := 1, numStrats := [1], numPlayers := [1],
        numberGroups := 1, rate := 0, uniDist := false,
        infinitePopSize := false, popSize := 1 }
      (fun st _ _ => (st, st)) 1 (some [[[(1:ℚ)]]]) false 0
      (fun _ _ _ => []) = .ok ([[[(1:ℚ)]]], [[[(0:ℚ)]]]) ∧
    ([[(1:ℚ)]] : List Vec).length = 1 ∧ (1 : ℕ) ≠ 1 + 1 := by
  refine ⟨?_, rfl, by norm_num⟩
  norm_num [simulate, runSim, setupStart, validateGroups, validate_state,
    runGens, initialPayoffs, reduceTraj, groupAvg, vsum, vadd,
    List.range_succ, List.replicate, List.getD]

/-- Witness for C3 on a 2-group, 1-generation run: `simulate` returns the
reduced trajectories, the per-type state trajectory has 1 entry, and the
value at (generation 0, type 0, strategy 0) is the arithmetic mean of the
two groups' raw values. -/
theorem claim_C3_witness :
    simulate
      { numPlayerTypes := 1, numStrats := [1], numPlayers := [1],
        numberGroups := 2, rate := 0, uniDist := false,
        infinitePopSize := false, popSize := 2 }
      (fun _ _ _ => ([[[(1:ℚ)]], [[(1:ℚ)]]], [[[(5:ℚ)]], [[(7:ℚ)]]])) 1
      (some [[[(1:ℚ)]], [[(1:ℚ)]]]) false 0 (fun _ a _ => [a]) =
      .ok (reduceTraj
        { numPlayerTypes := 1, numStrats := [1], numPlayers := [1],
          numberGroups := 2, rate := 0, uniDist := false,
          infinitePopSize := false, popSize := 2 }
        [[[[(1:ℚ)]], [[(1:ℚ)]]], [[[(1:ℚ)]], [[(1:ℚ)]]]] 1,
        reduceTraj
        { numPlayerTypes := 1, numStrats := [1], numPlayers := [1],
          numberGroups := 2, rate := 0, uniDist := false,
          infinitePopSize := false, popSize := 2 }
        [[[[(0:ℚ)]], [[(0:ℚ)]]], [[[(5:ℚ)]], [[(7:ℚ)]]]] 1) ∧
    ((reduceTraj
        { numPlayerTypes := 1, numStrats := [1], numPlayers := [1],
          numberGroups := 2, rate := 0, uniDist := false,
          infinitePopSize := false, popSize := 2 }
        [[[[(1:ℚ)]], [[(1:ℚ)]]], [[[(1:ℚ)]], [[(1:ℚ)]]]] 1).getD 0 []).length = 1 ∧
    (((reduceTraj
        { numPlayerTypes := 1, numStrats := [1], numPlayers := [1],
          numberGroups := 2, rate := 0, uniDist := false,
          infinitePopSize := false, popSize := 2 }
        [[[[(1:ℚ)]], [[(1:ℚ)]]], [[[(1:ℚ)]], [[(1:ℚ)]]]] 1).getD 0 []).getD 0 []).getD 0 0 =
      ((List.range 2).map fun j =>
        ((([[[[(1:ℚ)]], [[(1:ℚ)]]], [[[(1:ℚ)]], [[(1:ℚ)]]]].getD 0 []).getD j
          []).getD 0 []).getD 0 0).sum / (2:ℚ) := by
  have hrun : runSim
      { numPlayerTypes := 1, numStrats := [1], numPlayers := [1],
        numberGroups := 2, rate := 0, uniDist := false,
        infinitePopSize := false, popSize := 2 }
      (fun _ _ _ => ([[[(1:ℚ)]], [[(1:ℚ)]]], [[[(5:ℚ)]], [[(7:ℚ)]]])) 1
      (some [[[(1:ℚ)]], [[(1:ℚ)]]]) false 0 (fun _ a _ => [a]) =
      .ok ([[[[(1:ℚ)]], [[(1:ℚ)]]], [[[(1:ℚ)]], [[(1:ℚ)]]]],
        [[[[(0:ℚ)]], [[(0:ℚ)]]], [[[(5:ℚ)]], [[(7:ℚ)]]]]) := by
    norm_num [runSim, setupStart, validateGroups, validate_state,
      runGens, initialPayoffs, List.range_succ, List.replicate]
  have h := claim_C3
    { numPlayerTypes := 1, numStrats := [1], numPlayers := [1],
      numberGroups := 2, rate := 0, uniDist := false,
      infinitePopSize := false, popSize := 2 }
    (fun _ _ _ => ([[[(1:ℚ)]], [[(1:ℚ)]]], [[[(5:ℚ)]], [[(7:ℚ)]]]))
    (fun _ a _ => [a]) (some [[[(1:ℚ)]], [[(1:ℚ)]]]) false 0 1
    [[[[(1:ℚ)]], [[(1:ℚ)]]], [[[(1:ℚ)]], [[(1:ℚ)]]]]
    [[[[(0:ℚ)]], [[(0:ℚ)]]], [[[(5:ℚ)]], [[(7:ℚ)]]]]
    ⟨rfl, rfl, by norm_num⟩
    (by
      intro g t ht
      have h0 : t = 0 := by
        have ht2 : t < 1 := ht
        omega
      subst h0
      norm_num [List.getD])
    (by
      intro g t ht
      have h0 : t = 0 := by
        have ht2 : t < 1 := ht
        omega
      subst h0
      norm_num [List.getD])
    (by simp)
    (by
      intro st gs r snap hsnap
      simp only [List.mem_cons, List.not_mem_nil, or_false] at hsnap
      rcases hsnap with rfl | rfl
      · refine ⟨rfl, ?_⟩
        intro t ht
        have h0 : t = 0 := by
          have ht2 : t < 1 := ht
          omega
        subst h0
        norm_num [List.getD]
      · refine ⟨rfl, ?_⟩
        intro t ht
        have h0 : t = 0 := by
          have ht2 : t < 1 := ht
          omega
        subst h0
        norm_num [List.getD])
    hrun
  exact ⟨h.1, (h.2.2.2 0 (by decide)).1,
    ((h.2.2.2 0 (by decide)).2.2 0 (by decide) 0 (by decide)).1⟩
